import Mathlib

/-!
Verification development for the `immutable-staging` copy-on-write graph
rewrite engine (`src/index.ts`).

The JavaScript heap is modelled shallowly: objects live in an identity-keyed
heap (`Nat → Obj`), property tables are association lists of string keys,
and the write cache is an identity-keyed association list of patch tables,
mirroring the `WeakMap`-keyed cache of the source.  Staging proxies are
modelled as the value form `Val.proxyRef target`: a proxy is determined,
inside one `applyUpdate` call, by the object it wraps (all proxies share the
single write cache of the call).  The proxy `get`/`set` traps
(`buildStagingProxy`), `maintainArrayInvariant` and the merge function
`applyWrites` are translated statement by statement from the source.
-/

namespace ImmutableStaging

/-- A JavaScript value as it occurs in the graphs handled by the library:
scalars, `null`/`undefined`, functions (opaque), references to heap objects,
and staging proxies wrapping a heap object. -/
inductive Val where
  | num (n : Int)
  | str (s : String)
  | bool (b : Bool)
  | null
  | undef
  | fn
  | ref (id : Nat)
  | proxyRef (target : Nat)
deriving DecidableEq, Repr

/-- `typeof v === "object"` — true for plain object references, for proxies
(whose `typeof` is that of their target object) and for `null`. -/
def typeofObject : Val → Bool
  | .null => true
  | .ref _ => true
  | .proxyRef _ => true
  | _ => false

/-- `typeof v === "function"`. -/
def typeofFunction : Val → Bool
  | .fn => true
  | _ => false

def isProxy : Val → Bool
  | .proxyRef _ => true
  | _ => false

/-- JavaScript truthiness. -/
def truthy : Val → Bool
  | .num n => n ≠ 0
  | .str s => s ≠ ""
  | .bool b => b
  | .null => false
  | .undef => false
  | .fn => true
  | .ref _ => true
  | .proxyRef _ => true

def truthyOpt : Option Val → Bool
  | some v => truthy v
  | none => false

/-- A heap object.  `props` holds the own enumerable properties (for arrays:
the index properties).  `len` models the non-enumerable `length` own property
of arrays (it is not copied by `Object.assign` and not listed by
`Object.keys`, which is why it is kept outside `props`); it is 0 and unused
for plain objects. -/
structure Obj where
  isArr : Bool
  len : Nat
  props : List (String × Val)
deriving DecidableEq, Repr

/-- Association-list lookup (first match), used for property tables, the
heap and the write cache alike. -/
def alookup {α : Type} : List (String × α) → String → Option α
  | [], _ => none
  | (k, v) :: rest, p => if k = p then some v else alookup rest p

/-- Assign to a property: replace the first binding of the key, or append. -/
def aset {α : Type} : List (String × α) → String → α → List (String × α)
  | [], p, v => [(p, v)]
  | (k, w) :: rest, p, v => if k = p then (p, v) :: rest else (k, w) :: aset rest p v

/-- `delete o[p]` — remove the binding of the key. -/
def adel {α : Type} : List (String × α) → String → List (String × α)
  | [], _ => []
  | (k, w) :: rest, p => if k = p then adel rest p else (k, w) :: adel rest p

def nlookup {α : Type} : List (Nat × α) → Nat → Option α
  | [], _ => none
  | (k, v) :: rest, p => if k = p then some v else nlookup rest p

def nset {α : Type} : List (Nat × α) → Nat → α → List (Nat × α)
  | [], p, v => [(p, v)]
  | (k, w) :: rest, p, v => if k = p then (p, v) :: rest else (k, w) :: nset rest p v

/-- Keys of a property table. -/
def keysOf {α : Type} (l : List (String × α)) : List String := l.map Prod.fst

abbrev Props := List (String × Val)
abbrev HeapL := List (Nat × Obj)
/-- The write cache: per target object identity, the patch object holding the
pending property writes (`WeakMap<{}, {}>` in the source). -/
abbrev WC := List (Nat × Props)

/-- `Object.assign(target-copy, base, patch)`: every binding of `patch` is
written over `base` in order. -/
def assignProps {α : Type} (base : List (String × α)) (patch : List (String × α)) :
    List (String × α) :=
  patch.foldl (fun acc kv => aset acc kv.1 kv.2) base

def wrappedKey : String := "_immutableStagingWrappedObject"
def convKey : String := "_immutableStagingConvertArray"
def cacheKey : String := "_immutableStagingWriteCache"

def protectedNames : List String := [cacheKey, wrappedKey, convKey]

/-- The character for one decimal digit. -/
def digitChar : Nat → Char
  | 0 => '0'
  | 1 => '1'
  | 2 => '2'
  | 3 => '3'
  | 4 => '4'
  | 5 => '5'
  | 6 => '6'
  | 7 => '7'
  | 8 => '8'
  | _ => '9'

/-- Decimal digits of a natural number, most significant first; the fuel
argument only drives structural recursion (`n < fuel` suffices). -/
def natDigitsAux : Nat → Nat → List Char
  | 0, _ => []
  | fuel + 1, n =>
    if n < 10 then [digitChar n]
    else natDigitsAux fuel (n / 10) ++ [digitChar (n % 10)]

/-- The decimal string for a natural number — the property key a JavaScript
array index becomes. -/
def natKey (n : Nat) : String := ⟨natDigitsAux (n + 1) n⟩

/-- Property key for an integer (loop variables of the shrink loop can be
negative). -/
def intKey (i : Int) : String :=
  if i < 0 then "-" ++ natKey i.natAbs else natKey i.toNat

def isDigitChar (c : Char) : Bool := 48 ≤ c.toNat ∧ c.toNat ≤ 57

def digitsVal (cs : List Char) : Nat :=
  cs.foldl (fun a c => a * 10 + (c.toNat - 48)) 0

/-- Value of the longest digit prefix; `none` when it is empty (parseInt's
NaN case). -/
def digitsPrefixVal (cs : List Char) : Option Nat :=
  let ds := cs.takeWhile isDigitChar
  if ds.isEmpty then none else some (digitsVal ds)

def isSpaceChar (c : Char) : Bool := c = ' ' ∨ c = '\t' ∨ c = '\n'

/-- `parseInt(s, 10)`: skip whitespace, optional sign, then the longest digit
prefix (trailing garbage ignored); `none` models `NaN`. -/
def parseIntJS (s : String) : Option Int :=
  match s.data.dropWhile isSpaceChar with
  | '-' :: rest => (digitsPrefixVal rest).map (fun n => -(n : Int))
  | '+' :: rest => (digitsPrefixVal rest).map (fun n => (n : Int))
  | cs => (digitsPrefixVal cs).map (fun n => (n : Int))

/-- `ToNumber` on the values this development manipulates; `none` models
`NaN`.  Only integral numeric strings are modelled (the library's length
bookkeeping only ever produces integers). -/
def toNumberJS : Val → Option Int
  | .num n => some n
  | .bool b => some (if b then 1 else 0)
  | .null => some 0
  | .undef => none
  | .str s =>
    (match s.data.dropWhile isSpaceChar with
     | [] => some 0
     | '-' :: rest => (digitsPrefixVal rest).map (fun n => -(n : Int))
     | '+' :: rest => (digitsPrefixVal rest).map (fun n => (n : Int))
     | cs => (digitsPrefixVal cs).map (fun n => (n : Int)))
  | .fn => none
  | .ref _ => none
  | .proxyRef _ => none

/-- JavaScript `<` between two values (numeric comparison; comparisons
involving `NaN` are false). -/
def jsLt (a b : Val) : Bool :=
  match toNumberJS a, toNumberJS b with
  | some x, some y => x < y
  | _, _ => false

/-- `ToLength` of an optional property value (absent/`NaN` ↦ 0, negative ↦ 0). -/
def toLengthNat : Option Val → Nat
  | some v => match toNumberJS v with
    | some n => n.toNat
    | none => 0
  | none => 0

/-- A finite model of `Array.prototype`'s function-valued members, consulted
by the `typeof target[property] === "function"` checks of the traps. -/
def arrayMethodNames : List String :=
  ["push", "pop", "shift", "unshift", "slice", "splice", "fill", "filter",
   "map", "forEach", "concat", "join", "indexOf", "includes", "find",
   "reduce", "sort", "reverse", "some", "every", "flat", "keys", "values",
   "entries", "lastIndexOf", "findIndex", "copyWithin"]

/-- A finite model of `Object.prototype`'s function-valued members. -/
def objectMethodNames : List String :=
  ["hasOwnProperty", "toString", "valueOf", "isPrototypeOf",
   "propertyIsEnumerable", "toLocaleString", "constructor"]

/-- `target[property]` on a raw heap object, prototype chain included:
an array's non-enumerable `length`, own properties, inherited prototype
methods, otherwise `undefined`. -/
def targetProp (ob : Obj) (p : String) : Val :=
  if ob.isArr ∧ p = "length" then .num ob.len
  else match alookup ob.props p with
    | some v => v
    | none =>
      if (ob.isArr ∧ p ∈ arrayMethodNames) ∨ p ∈ objectMethodNames then .fn
      else .undef

inductive Err where
  | noFuel          -- unbounded recursion (a reference cycle)
  | danglingRef     -- a reference to a node the heap does not contain
  | typeError       -- a TypeError thrown by the engine (e.g. `in` on null)
  | proxyNonObject  -- `new Proxy(null, …)` throws a TypeError
  | writeToMethod   -- "… is a function; you can't assign to functions …"
  | protectedName   -- "… is a protected property name …"
  | arrayInvariant  -- "A property … that's not an integer or 'length' …"
  | notModeled      -- constructs outside the modelled fragment
deriving DecidableEq, Repr

deriving instance DecidableEq for Except

/-!
The staging-proxy traps (`buildStagingProxy` in the source).  A proxy is
identified by the id of the object it wraps; `wc` is the write cache shared
by all proxies of one `applyUpdate` call, `heap` the (read-only during the
mutator) object heap.
-/

/-- The `get` trap.  Reading `_immutableStagingWriteCache` returns the raw
cache object, which is not a graph value; no claim reads it, so that case is
mapped to `Err.notModeled`.  Symbol-keyed reads are outside the model (keys
are strings). -/
def proxyGet (wc : WC) (heap : HeapL) (t : Nat) (p : String) : Except Err Val :=
  if p = cacheKey then .error .notModeled
  else if p = wrappedKey then .ok (.ref t)
  else
    match nlookup heap t with
    | none => .error .danglingRef
    | some ob =>
      -- `property in (writeCache.get(target) || {})`: own keys of the patch
      -- object, plus Object.prototype members reached through `in`.
      let entry := (nlookup wc t).getD []
      if (alookup entry p).isSome ∨ p ∈ objectMethodNames then
        match nlookup wc t with
        | some e =>
          -- `writeCache.get(target)![property]`; a prototype member of the
          -- patch object is the inherited function.
          .ok ((alookup e p).getD (if p ∈ objectMethodNames then .fn else .undef))
        | none =>
          -- `writeCache.get(target)` is undefined: `undefined[property]`
          .error .typeError
      else
        match targetProp ob p with
        | .ref c => .ok (.proxyRef c)                 -- buildStagingProxy(wc, child)
        | .null => .error .proxyNonObject             -- new Proxy(null, …) throws
        | .proxyRef _ => .error .notModeled           -- proxy stored inside a raw object
        | .fn => .ok .fn                              -- target[p].bind(receiver)
        | v => .ok v

/-- `maintainArrayInvariant(writeCache, target, property, value)`, called by
the `set` trap after the write has already been recorded in the cache.  The
result pairs the outcome with the cache as mutated so far (the
`_immutableStagingConvertArray` flag is set before the error is thrown). -/
def maintainArrayInvariant (wc : WC) (ob : Obj) (t : Nat) (p : String) (v : Val) :
    Except Err Unit × WC :=
  let e0 := (nlookup wc t).getD []
  let e1 := aset e0 convKey (.bool true)
  let wc1 := nset wc t e1
  -- `currentLen`: the pending length if the cache has one, else target.length
  let curLen : Val := (alookup e1 "length").getD (.num ob.len)
  match parseIntJS p with
  | some i =>
    -- an integral property: grow the pending length when index+1 exceeds it
    if jsLt curLen (.num (i + 1)) then
      (.ok (), nset wc1 t (aset e1 "length" (.num (i + 1))))
    else (.ok (), wc1)
  | none =>
    if p = "length" then
      -- shrink: delete pending entries in [newLen, currentLen)
      match toNumberJS v, toNumberJS curLen with
      | some nl, some cl =>
        if nl < cl then
          (.ok (), nset wc1 t
            ((List.range (cl - nl).toNat).foldl (fun acc j => adel acc (intKey (nl + j))) e1))
        else (.ok (), wc1)
      | _, _ => (.ok (), wc1)
    else (.error .arrayInvariant, wc1)

/-- The `set` trap.  Note that the value is stored in the cache exactly as
assigned — a staging proxy is not unwrapped here (the source comments that
unwrapping is deferred to the merge). -/
def proxySet (wc : WC) (heap : HeapL) (t : Nat) (p : String) (v : Val) :
    Except Err Unit × WC :=
  match nlookup heap t with
  | none => (.error .danglingRef, wc)
  | some ob =>
    if typeofFunction (targetProp ob p) then (.error .writeToMethod, wc)
    else if p ∈ protectedNames then (.error .protectedName, wc)
    else
      let entry := (nlookup wc t).getD []      -- ensure the patch object
      let wc2 := nset wc t (aset entry p v)    -- writeCache.get(target)[property] = value
      if ob.isArr then maintainArrayInvariant wc2 ob t p v
      else (.ok (), wc2)

/-!
The merge engine (`applyWrites` in the source).  State threads the heap (the
merge allocates shallow copies), the next fresh id, and the `applied` memo
table mapping original node ids to their rebuilt counterparts.
-/

structure St where
  heap : HeapL
  next : Nat
  applied : List (Nat × Nat)
deriving DecidableEq, Repr

def alloc (st : St) (ob : Obj) : Nat × St :=
  (st.next, { heap := (st.next, ob) :: st.heap, next := st.next + 1, applied := st.applied })

/-- Resolve `nestedObj`: the unwrap step of the merge loop.  A proxy's
`"_immutableStagingWrappedObject" in nestedObj` test hits the `has` trap and
its read returns the wrapped target; a plain object is inspected for an own
property of that name (never present in reserved-name-free graphs); `in`
applied to `null` throws a TypeError. -/
def unwrapNested (heap : HeapL) : Val → Except Err Nat
  | .proxyRef t => .ok t
  | .null => .error .typeError
  | .ref c =>
    match nlookup heap c with
    | none => .error .danglingRef
    | some ob =>
      match alookup ob.props wrappedKey with
      | none => .ok c
      | some (.ref c') => .ok c'
      | some _ => .error .notModeled
  | _ => .error .typeError

/-- The `forEach` loop of `applyWrites` over the properties of `patched`:
for every object-valued property, unwrap it, recurse via `rec` unless the
memo already has it, and record the rebuilt node in the patch when it
differs from the current value.  `rec` is `applyWrites` at one less fuel. -/
def goProps (recf : Nat → St → Except Err Nat × St) :
    List (String × Val) → Props → St → Except Err Props × St
  | [], patch, st => (.ok patch, st)
  | (k, v) :: rest, patch, st =>
    if typeofObject v then
      match unwrapNested st.heap v with
      | .error e => (.error e, st)
      | .ok n =>
        let step : Except Err Unit × St :=
          if (nlookup st.applied n).isSome then (.ok (), st)
          else
            match recf n st with
            | (.error e, st') => (.error e, st')
            | (.ok _, st') => (.ok (), st')
        match step with
        | (.error e, st') => (.error e, st')
        | (.ok _, st') =>
          -- `applied.get(nestedObj)`; undefined when absent
          let rv : Val := match nlookup st'.applied n with
            | some r => .ref r
            | none => .undef
          let patch' := if v ≠ rv then aset patch k rv else patch
          goProps recf rest patch' st'
    else goProps recf rest patch st

/-- `applyWrites(object, writeCache, applied)`, fuel-indexed: running out of
fuel models the unbounded recursion a reference cycle produces. -/
def applyWrites (wc : WC) : Nat → Nat → St → Except Err Nat × St
  | 0, _, st => (.error .noFuel, st)
  | fuel + 1, obj, st =>
    match nlookup st.heap obj with
    | none => (.error .danglingRef, st)
    | some ob =>
      let patch0 := (nlookup wc obj).getD []
      let patched := assignProps ob.props patch0
      match goProps (applyWrites wc fuel) patched patch0 st with
      | (.error e, st') => (.error e, st')
      | (.ok patchF, st') =>
        let (retObj, st2) : Nat × St :=
          if patchF.isEmpty then (obj, st')
          else alloc st' { isArr := false, len := 0, props := assignProps ob.props patchF }
        match nlookup st2.heap retObj with
        | none => (.error .danglingRef, st2)
        | some rob =>
          if truthyOpt (alookup rob.props convKey) then
            -- delete retObj._immutableStagingConvertArray; retObj = Array.from(retObj)
            let rob' : Obj := { rob with props := adel rob.props convKey }
            let st3 : St := { st2 with heap := nset st2.heap retObj rob' }
            let n := toLengthNat (alookup rob'.props "length")
            let arrOb : Obj :=
              { isArr := true, len := n,
                props := (List.range n).map
                  (fun i => (natKey i, (alookup rob'.props (natKey i)).getD .undef)) }
            let (aid, st4) := alloc st3 arrOb
            (.ok aid, { st4 with applied := (obj, aid) :: st4.applied })
          else
            (.ok retObj, { st2 with applied := (obj, retObj) :: st2.applied })

/-- `applyUpdate` after the mutator has run: the merge over the original
root, the cache the mutator produced, and a fresh memo table
(`resolveStagingObject`). -/
def runMerge (wc : WC) (fuel : Nat) (root : Nat) (heap : HeapL) (next : Nat) :
    Except Err Nat × St :=
  applyWrites wc fuel root { heap := heap, next := next, applied := [] }

/-!
Concrete graphs used to instantiate the theorems, mirroring the fixtures of
the library's test suite.
-/

/-- `{one: {three: 10, nestedObject: {five: "five"}}, two: {six: 30}, seven: "s"}`. -/
def heapSimple : HeapL :=
  [(0, ⟨false, 0, [("one", .ref 1), ("two", .ref 2), ("seven", .str "s")]⟩),
   (1, ⟨false, 0, [("three", .num 10), ("nestedObject", .ref 3)]⟩),
   (2, ⟨false, 0, [("six", .num 30)]⟩),
   (3, ⟨false, 0, [("five", .str "five")]⟩)]

/-- A DAG: `.pa` and `.pb` share node 3; `.pc` is unrelated. -/
def heapDag : HeapL :=
  [(0, ⟨false, 0, [("pa", .ref 1), ("pb", .ref 2), ("pc", .ref 4)]⟩),
   (1, ⟨false, 0, [("object", .ref 3)]⟩),
   (2, ⟨false, 0, [("object", .ref 3)]⟩),
   (3, ⟨false, 0, [("x", .num 1), ("y", .str "shared")]⟩),
   (4, ⟨false, 0, [("z", .num 9)]⟩)]

/-- `{scalar: 1, array: ["a", "b", "c"]}`. -/
def heapArr : HeapL :=
  [(0, ⟨false, 0, [("scalar", .num 1), ("array", .ref 1)]⟩),
   (1, ⟨true, 3, [("0", .str "a"), ("1", .str "b"), ("2", .str "c")]⟩)]

/-- A graph whose root uses the reserved sequence-coercion key as data. -/
def heapConv : HeapL :=
  [(0, ⟨false, 0, [(convKey, .bool true), ("x", .num 1)]⟩)]

/-- `{z: null}`. -/
def heapNull : HeapL :=
  [(0, ⟨false, 0, [("z", .null)]⟩)]

/-!
Specification-side notions: reachability in a heap along object references,
pending writes, and the wellformedness conditions satisfied by the graphs
`applyUpdate` receives and the caches its mutators produce.
-/

/-- Reachability from a node along `ref`-valued properties. -/
inductive Reach (heap : HeapL) : Nat → Nat → Prop where
  | refl (m : Nat) : Reach heap m m
  | step {m c q : Nat} (k : String) (ob : Obj) :
      nlookup heap m = some ob → alookup ob.props k = some (.ref c) →
      Reach heap c q → Reach heap m q

/-- The node has no pending write: its write-cache entry is absent or empty. -/
def entryEmpty (wc : WC) (m : Nat) : Prop :=
  ∀ e, nlookup wc m = some e → e = []

/-- Nothing reachable from `m` carries a pending write. -/
def Clean (heap : HeapL) (wc : WC) (m : Nat) : Prop :=
  ∀ q, Reach heap m q → entryEmpty wc q

/-- A value stored in a raw graph object may reference only live nodes and
may not be a staging proxy. -/
def valRefOkB (heap : HeapL) : Val → Bool
  | .ref c => (nlookup heap c).isSome
  | .proxyRef _ => false
  | _ => true

/-- Wellformedness of an input graph: property keys are duplicate-free and
avoid the reserved marker names, references stay inside the heap, and no
staging proxy is stored in a raw object. -/
def ClosedWF (heap : HeapL) : Prop :=
  ∀ e ∈ heap, (keysOf e.2.props).Nodup ∧
    ∀ kv ∈ e.2.props, kv.1 ≠ wrappedKey ∧ kv.1 ≠ convKey ∧ valRefOkB heap kv.2 = true

/-- A value stored in a write-cache patch references only live nodes (it may
be a staging proxy — the `set` trap stores proxies verbatim). -/
def patchValOkB (heap : HeapL) : Val → Bool
  | .ref c => (nlookup heap c).isSome
  | .proxyRef t => (nlookup heap t).isSome
  | _ => true

/-- Wellformedness of a write cache as the traps produce it: entries are
keyed by live nodes, patch keys are duplicate-free, patch values point into
the heap, and the sequence-coercion key only ever holds `true`. -/
def WCWF (heap : HeapL) (wc : WC) : Prop :=
  ∀ e ∈ wc, (nlookup heap e.1).isSome ∧ (keysOf e.2).Nodup ∧
    ∀ kv ∈ e.2, patchValOkB heap kv.2 = true ∧ (kv.1 = convKey → kv.2 = Val.bool true)

/-- No object of the heap carries a truthy sequence-coercion marker. -/
def ConvFalsy (heap : HeapL) : Prop :=
  ∀ e ∈ heap, truthyOpt (alookup e.2.props convKey) = false

instance (heap : HeapL) : Decidable (ClosedWF heap) := by
  unfold ClosedWF
  exact inferInstance

instance (heap : HeapL) (wc : WC) : Decidable (WCWF heap wc) := by
  unfold WCWF
  exact inferInstance

instance (heap : HeapL) : Decidable (ConvFalsy heap) := by
  unfold ConvFalsy
  exact inferInstance

/-- `Object.assign({}, object, patch)` for a node of the original graph: the
property table the merge loop iterates over. -/
def patchedOf (heap0 : HeapL) (wc : WC) (m : Nat) : Props :=
  match nlookup heap0 m with
  | some ob => assignProps ob.props ((nlookup wc m).getD [])
  | none => []

/-- The node's pending patch carries a truthy sequence-coercion flag. -/
def convFlagged (wc : WC) (m : Nat) : Prop :=
  truthyOpt (alookup ((nlookup wc m).getD []) convKey) = true

instance (wc : WC) (m : Nat) : Decidable (convFlagged wc m) := by
  unfold convFlagged
  exact inferInstance

/-- What the memo table records about one rebuilt node, relative to the
original heap `heap0` and the cache `wc`: identity is preserved exactly for
clean nodes, rebuilt nodes are fresh, the result object exists in the heap,
contains no staging proxy, and (off the sequence-coercion path) its
properties are the patched properties with object-valued entries replaced by
their rebuilt counterparts. -/
structure AppliedFact (heap0 : HeapL) (wc : WC) (st : St) (m r : Nat) : Prop where
  src : (nlookup heap0 m).isSome
  idIff : r = m ↔ Clean heap0 wc m
  fresh : r ≠ m → nlookup heap0 r = none
  resObj : ∃ rob, nlookup st.heap r = some rob ∧
    (∀ kv ∈ rob.props, isProxy kv.2 = false) ∧
    (¬ convFlagged wc m →
      ∀ k v, alookup (patchedOf heap0 wc m) k = some v →
        (typeofObject v = true →
          ∃ c rc, unwrapNested heap0 v = .ok c ∧ nlookup st.applied c = some rc ∧
            alookup rob.props k = some (.ref rc)) ∧
        (typeofObject v = false → alookup rob.props k = some v))

/-- The merge-state invariant: the original heap is embedded unchanged, all
heap ids are below the allocation cursor, and every memo entry satisfies
`AppliedFact`. -/
structure StInv (heap0 : HeapL) (wc : WC) (st : St) : Prop where
  agree : ∀ id ob, nlookup heap0 id = some ob → nlookup st.heap id = some ob
  bound : ∀ id, (nlookup st.heap id).isSome → id < st.next
  good : ∀ m r, nlookup st.applied m = some r → AppliedFact heap0 wc st m r

/-- Monotone evolution of the merge state: existing heap entries and memo
entries are never changed. -/
structure StMono (st st' : St) : Prop where
  heap : ∀ id v, nlookup st.heap id = some v → nlookup st'.heap id = some v
  next : st.next ≤ st'.next
  applied : ∀ m r, nlookup st.applied m = some r → nlookup st'.applied m = some r

/-- An edge value respects a rank bound (used to state acyclicity of the
graph together with its pending patch edges). -/
def edgeRankB (rank : Nat → Nat) (r : Nat) : Val → Bool
  | .ref c => decide (rank c < r)
  | .proxyRef t => decide (rank t < r)
  | _ => true

/-- Acyclicity witness: a rank function that strictly decreases along every
object-reference edge of the heap and along every composite pending value of
the cache.  Claims about `applyUpdate` presuppose acyclic (tree/DAG) graphs;
a mutator that aliases an ancestor into a descendant creates a cycle, on
which the merge does not terminate. -/
def RankWF (heap0 : HeapL) (wc : WC) (rank : Nat → Nat) : Prop :=
  (∀ e ∈ heap0, ∀ kv ∈ e.2.props, edgeRankB rank (rank e.1) kv.2 = true) ∧
  (∀ e ∈ wc, ∀ kv ∈ e.2, edgeRankB rank (rank e.1) kv.2 = true)

instance (heap0 : HeapL) (wc : WC) (rank : Nat → Nat) : Decidable (RankWF heap0 wc rank) := by
  unfold RankWF
  exact inferInstance

/-- The property lists handed to the merge loop: duplicate-free keys and
composite values pointing into the original heap. -/
def ItemsWF (heap0 : HeapL) (items : Props) : Prop :=
  (keysOf items).Nodup ∧
  ∀ kv ∈ items, (∀ c, kv.2 = Val.ref c → (nlookup heap0 c).isSome) ∧
    (∀ t, kv.2 = Val.proxyRef t → (nlookup heap0 t).isSome)

/-- The induction statement for `applyWrites` at a given fuel: invariants
are preserved (also on aborted runs), the state evolves monotonically, every
node the call enters into the memo has rank at most the rank of the call's
argument, and a successful call leaves the memo entry for its argument. -/
def MasterA (heap0 : HeapL) (wc : WC) (rank : Nat → Nat) (fuel : Nat) : Prop :=
  ∀ obj st, StInv heap0 wc st → nlookup st.applied obj = none →
    (nlookup heap0 obj).isSome →
    StInv heap0 wc (applyWrites wc fuel obj st).2 ∧
    StMono st (applyWrites wc fuel obj st).2 ∧
    (∀ m, nlookup st.applied m = none →
      (nlookup (applyWrites wc fuel obj st).2.applied m).isSome → rank m ≤ rank obj) ∧
    (∀ r, (applyWrites wc fuel obj st).1 = .ok r →
      nlookup (applyWrites wc fuel obj st).2.applied obj = some r)

/-- The induction statement for the merge loop: invariants and monotonicity,
a rank bound for newly memoized nodes (each is dominated by some composite
item of the list), and — on success — a characterization of the final patch:
untouched at keys that are absent or non-composite in `patched`, and holding
the memoized rebuilt node for composite keys that changed. -/
def MasterG (heap0 : HeapL) (wc : WC) (rank : Nat → Nat)
    (recf : Nat → St → Except Err Nat × St) : Prop :=
  ∀ items patch st, StInv heap0 wc st → ItemsWF heap0 items → (keysOf patch).Nodup →
    StInv heap0 wc (goProps recf items patch st).2 ∧
    StMono st (goProps recf items patch st).2 ∧
    (∀ m, nlookup st.applied m = none →
      (nlookup (goProps recf items patch st).2.applied m).isSome →
      ∃ kv ∈ items, typeofObject kv.2 = true ∧
        ∃ c, unwrapNested heap0 kv.2 = .ok c ∧ rank m ≤ rank c) ∧
    (∀ patchF, (goProps recf items patch st).1 = .ok patchF →
      (keysOf patchF).Nodup ∧
      (∀ k, alookup items k = none → alookup patchF k = alookup patch k) ∧
      (∀ k v, alookup items k = some v → typeofObject v = false →
        alookup patchF k = alookup patch k) ∧
      (∀ k v, alookup items k = some v → typeofObject v = true →
        ∃ c rc, unwrapNested heap0 v = .ok c ∧
          nlookup (goProps recf items patch st).2.applied c = some rc ∧
          ((v = Val.ref rc ∧ alookup patchF k = alookup patch k) ∨
           (v ≠ Val.ref rc ∧ alookup patchF k = some (.ref rc)))))

/-! Association-list lemmas. -/

theorem alookup_aset_self {α : Type} (l : List (String × α)) (k : String) (v : α) :
    alookup (aset l k v) k = some v := by
  induction l with
  | nil => simp [aset, alookup]
  | cons kv rest ih =>
    obtain ⟨k0, v0⟩ := kv
    by_cases h : k0 = k
    · subst h; simp [aset, alookup]
    · simp [aset, alookup, h, ih]

theorem alookup_aset_ne {α : Type} (l : List (String × α)) {k k' : String} (v : α)
    (h : k' ≠ k) : alookup (aset l k v) k' = alookup l k' := by
  have hne : ¬ k = k' := fun hc => h hc.symm
  induction l with
  | nil => simp [aset, alookup, hne]
  | cons kv rest ih =>
    obtain ⟨k0, v0⟩ := kv
    by_cases h0 : k0 = k
    · subst h0; simp [aset, alookup, hne]
    · by_cases h1 : k0 = k'
      · subst h1; simp [aset, alookup, h0]
      · simp [aset, alookup, h0, h1, ih]

theorem mem_aset {α : Type} {l : List (String × α)} {k : String} {v : α} {kv : String × α}
    (h : kv ∈ aset l k v) : kv ∈ l ∨ kv = (k, v) := by
  induction l with
  | nil =>
    simp [aset] at h
    right; simp [h]
  | cons kv0 rest ih =>
    obtain ⟨k0, v0⟩ := kv0
    by_cases h0 : k0 = k
    · subst h0
      simp [aset] at h
      rcases h with h | h
      · right; simp [h]
      · left; simp [h]
    · simp [aset, h0] at h
      rcases h with h | h
      · left; simp [h]
      · rcases ih h with h' | h'
        · left; simp [h']
        · right; exact h'

theorem alookup_adel_self {α : Type} (l : List (String × α)) (p : String) :
    alookup (adel l p) p = none := by
  induction l with
  | nil => rfl
  | cons kv rest ih =>
    obtain ⟨k0, v0⟩ := kv
    by_cases h0 : k0 = p
    · simpa [adel, h0] using ih
    · simpa [adel, h0, alookup] using ih

theorem alookup_adel_ne {α : Type} (l : List (String × α)) {p q : String} (h : q ≠ p) :
    alookup (adel l p) q = alookup l q := by
  induction l with
  | nil => rfl
  | cons kv rest ih =>
    obtain ⟨k0, v0⟩ := kv
    by_cases h0 : k0 = p
    · subst h0
      have hpq : ¬ k0 = q := fun hc => h hc.symm
      simp [adel, alookup, hpq, ih]
    · simp [adel, alookup, h0, ih]

theorem mem_adel {α : Type} {l : List (String × α)} {p : String} {kv : String × α}
    (h : kv ∈ adel l p) : kv ∈ l := by
  induction l with
  | nil => simp [adel] at h
  | cons kv0 rest ih =>
    obtain ⟨k0, v0⟩ := kv0
    by_cases h0 : k0 = p
    · simp [adel, h0] at h
      simp [ih h]
    · simp [adel, h0] at h
      rcases h with h | h
      · simp [h]
      · simp [ih h]

theorem nlookup_nset_self {α : Type} (l : List (Nat × α)) (k : Nat) (v : α) :
    nlookup (nset l k v) k = some v := by
  induction l with
  | nil => simp [nset, nlookup]
  | cons kv rest ih =>
    obtain ⟨k0, v0⟩ := kv
    by_cases h : k0 = k
    · subst h; simp [nset, nlookup]
    · simp [nset, nlookup, h, ih]

theorem nlookup_nset_ne {α : Type} (l : List (Nat × α)) {k k' : Nat} (v : α)
    (h : k' ≠ k) : nlookup (nset l k v) k' = nlookup l k' := by
  have hne : ¬ k = k' := fun hc => h hc.symm
  induction l with
  | nil => simp [nset, nlookup, hne]
  | cons kv rest ih =>
    obtain ⟨k0, v0⟩ := kv
    by_cases h0 : k0 = k
    · subst h0; simp [nset, nlookup, hne]
    · by_cases h1 : k0 = k'
      · subst h1; simp [nset, nlookup, h0]
      · simp [nset, nlookup, h0, h1, ih]

theorem alookup_eq_some_mem {α : Type} {l : List (String × α)} {k : String} {v : α}
    (h : alookup l k = some v) : (k, v) ∈ l := by
  induction l with
  | nil => simp [alookup] at h
  | cons kv rest ih =>
    obtain ⟨k0, v0⟩ := kv
    by_cases h0 : k0 = k
    · subst h0
      simp [alookup] at h
      simp [h]
    · simp [alookup, h0] at h
      simp [ih h]

theorem alookup_of_mem_nodup {α : Type} {l : List (String × α)} {k : String} {v : α}
    (hn : (keysOf l).Nodup) (h : (k, v) ∈ l) : alookup l k = some v := by
  induction l with
  | nil => simp at h
  | cons kv rest ih =>
    obtain ⟨k0, v0⟩ := kv
    have hn' := List.nodup_cons.mp (show (k0 :: keysOf rest).Nodup from hn)
    rcases List.mem_cons.mp h with h | h
    · have h1 : k0 = k := (congrArg Prod.fst h).symm
      have h2 : v0 = v := (congrArg Prod.snd h).symm
      simp [alookup, h1, h2]
    · have hk : ¬ k0 = k := by
        rintro rfl
        exact hn'.1 (List.mem_map.mpr ⟨(k0, v), h, rfl⟩)
      simp [alookup, hk, ih hn'.2 h]

theorem alookup_none_not_mem {α : Type} {l : List (String × α)} {k : String}
    (h : alookup l k = none) {v : α} : (k, v) ∉ l := by
  induction l with
  | nil => simp
  | cons kv rest ih =>
    obtain ⟨k0, v0⟩ := kv
    by_cases h0 : k0 = k
    · subst h0
      simp [alookup] at h
    · simp [alookup, h0] at h
      intro hmem
      rcases List.mem_cons.mp hmem with hmem | hmem
      · exact h0 (congrArg Prod.fst hmem).symm
      · exact ih h hmem

theorem nodup_keys_aset {α : Type} {l : List (String × α)} (hn : (keysOf l).Nodup)
    (k : String) (v : α) : (keysOf (aset l k v)).Nodup := by
  induction l with
  | nil => simp [aset, keysOf]
  | cons kv rest ih =>
    obtain ⟨k0, v0⟩ := kv
    have hn' := List.nodup_cons.mp (show (k0 :: keysOf rest).Nodup from hn)
    by_cases h0 : k0 = k
    · subst h0
      have : keysOf (aset ((k0, v0) :: rest) k0 v) = k0 :: keysOf rest := by
        simp [aset, keysOf]
      rw [this]
      exact List.nodup_cons.mpr ⟨hn'.1, hn'.2⟩
    · have : keysOf (aset ((k0, v0) :: rest) k v) = k0 :: keysOf (aset rest k v) := by
        simp [aset, keysOf, h0]
      rw [this]
      refine List.nodup_cons.mpr ⟨?_, ih hn'.2⟩
      intro hb
      rcases List.mem_map.mp hb with ⟨⟨kk, vv⟩, hmem, hfst⟩
      rcases mem_aset hmem with h | h
      · exact hn'.1 (hfst ▸ List.mem_map.mpr ⟨_, h, rfl⟩)
      · have hkk : kk = k := congrArg Prod.fst h
        exact h0 (by rw [← hfst, hkk])

theorem alookup_assign_of_none {α : Type} (base : List (String × α))
    {patch : List (String × α)} {k : String} (h : alookup patch k = none) :
    alookup (assignProps base patch) k = alookup base k := by
  induction patch generalizing base with
  | nil => simp [assignProps]
  | cons kv rest ih =>
    obtain ⟨k0, v0⟩ := kv
    by_cases h0 : k0 = k
    · subst h0; simp [alookup] at h
    · simp [alookup, h0] at h
      have heq : assignProps base ((k0, v0) :: rest) = assignProps (aset base k0 v0) rest := rfl
      rw [heq, ih _ h]
      exact alookup_aset_ne base v0 (fun hc : k = k0 => h0 hc.symm)

theorem alookup_assign_of_some {α : Type} (base : List (String × α))
    {patch : List (String × α)} {k : String} {v : α}
    (hn : (keysOf patch).Nodup) (h : alookup patch k = some v) :
    alookup (assignProps base patch) k = some v := by
  induction patch generalizing base with
  | nil => simp [alookup] at h
  | cons kv rest ih =>
    obtain ⟨k0, v0⟩ := kv
    have hn' := List.nodup_cons.mp (show (k0 :: keysOf rest).Nodup from hn)
    have heq : assignProps base ((k0, v0) :: rest) = assignProps (aset base k0 v0) rest := rfl
    by_cases h0 : k0 = k
    · subst h0
      simp [alookup] at h
      subst h
      have hnone : alookup rest k0 = none := by
        cases hh : alookup rest k0 with
        | none => rfl
        | some w =>
          exact (hn'.1 (List.mem_map.mpr ⟨(k0, w), alookup_eq_some_mem hh, rfl⟩)).elim
      rw [heq, alookup_assign_of_none _ hnone, alookup_aset_self]
    · simp [alookup, h0] at h
      rw [heq, ih _ hn'.2 h]

theorem mem_assignProps {α : Type} {base patch : List (String × α)} {kv : String × α}
    (h : kv ∈ assignProps base patch) : kv ∈ base ∨ kv ∈ patch := by
  induction patch generalizing base with
  | nil => exact Or.inl h
  | cons kv0 rest ih =>
    obtain ⟨k0, v0⟩ := kv0
    have heq : assignProps base ((k0, v0) :: rest) = assignProps (aset base k0 v0) rest := rfl
    rw [heq] at h
    rcases ih h with h' | h'
    · rcases mem_aset h' with h'' | h''
      · exact Or.inl h''
      · right; simp [h'']
    · right; simp [h']

theorem nodup_keys_assign {α : Type} {base : List (String × α)} (patch : List (String × α))
    (hn : (keysOf base).Nodup) : (keysOf (assignProps base patch)).Nodup := by
  induction patch generalizing base with
  | nil => exact hn
  | cons kv rest ih =>
    obtain ⟨k0, v0⟩ := kv
    exact ih (nodup_keys_aset hn k0 v0)

/-! Decimal keys: `natKey n` is a digit string and `parseIntJS` recovers `n`. -/

theorem digitChar_toNat {d : Nat} (h : d < 10) : (digitChar d).toNat = 48 + d := by
  interval_cases d <;> decide

theorem digitChar_isDigit {d : Nat} (h : d < 10) : isDigitChar (digitChar d) = true := by
  interval_cases d <;> decide

theorem natDigitsAux_digits {fuel n : Nat} (h : n < fuel) :
    ∀ c ∈ natDigitsAux fuel n, isDigitChar c = true := by
  induction fuel generalizing n with
  | zero => omega
  | succ fuel ih =>
    intro c hc
    by_cases h10 : n < 10
    · simp [natDigitsAux, h10] at hc
      subst hc
      exact digitChar_isDigit h10
    · simp [natDigitsAux, h10] at hc
      rcases hc with hc | hc
      · have hlt : n / 10 < fuel := by
          have h1 : n / 10 < n := Nat.div_lt_self (by omega) (by omega)
          omega
        exact ih hlt c hc
      · subst hc
        exact digitChar_isDigit (Nat.mod_lt n (by omega))

theorem natDigitsAux_ne_nil {fuel n : Nat} (h : n < fuel) : natDigitsAux fuel n ≠ [] := by
  cases fuel with
  | zero => omega
  | succ fuel =>
    by_cases h10 : n < 10
    · simp [natDigitsAux, h10]
    · simp [natDigitsAux, h10]

theorem digitsVal_append (ds : List Char) (c : Char) :
    digitsVal (ds ++ [c]) = digitsVal ds * 10 + (c.toNat - 48) := by
  simp [digitsVal, List.foldl_append]

theorem digitsVal_natDigitsAux {fuel n : Nat} (h : n < fuel) :
    digitsVal (natDigitsAux fuel n) = n := by
  induction fuel generalizing n with
  | zero => omega
  | succ fuel ih =>
    by_cases h10 : n < 10
    · simp [natDigitsAux, h10, digitsVal, digitChar_toNat h10]
    · have hlt : n / 10 < fuel := by
        have h1 : n / 10 < n := Nat.div_lt_self (by omega) (by omega)
        omega
      simp only [natDigitsAux, h10, if_false]
      rw [digitsVal_append, ih hlt, digitChar_toNat (Nat.mod_lt n (by omega))]
      have h3 := Nat.div_add_mod n 10
      omega

theorem isDigitChar_not_space {c : Char} (h : isDigitChar c = true) :
    isSpaceChar c = false := by
  cases hsp : isSpaceChar c
  · rfl
  · exfalso
    simp [isSpaceChar] at hsp
    rcases hsp with rfl | rfl | rfl <;> exact absurd h (by decide)

theorem isDigitChar_ne_sign {c : Char} (h : isDigitChar c = true) :
    c ≠ '-' ∧ c ≠ '+' := by
  constructor <;> rintro rfl <;> exact absurd h (by decide)

theorem takeWhile_of_all {p : Char → Bool} {l : List Char}
    (h : ∀ c ∈ l, p c = true) : l.takeWhile p = l := by
  induction l with
  | nil => rfl
  | cons c rest ih =>
    have h1 : p c = true := h c (by simp)
    have h2 : rest.takeWhile p = rest := ih (fun c' hc' => h c' (by simp [hc']))
    simp [List.takeWhile_cons, h1, h2]

theorem parseIntJS_natKey (n : Nat) : parseIntJS (natKey n) = some n := by
  have hlt : n < n + 1 := Nat.lt_succ_self n
  have hdig := natDigitsAux_digits hlt
  have hval := digitsVal_natDigitsAux hlt
  have hne := natDigitsAux_ne_nil hlt
  unfold parseIntJS natKey
  cases hd : natDigitsAux (n + 1) n with
  | nil => exact (hne hd).elim
  | cons c rest =>
    have hcdig : isDigitChar c = true := hdig c (by simp [hd])
    have hcs : isSpaceChar c = false := isDigitChar_not_space hcdig
    have hsig := isDigitChar_ne_sign hcdig
    have hdrop : (String.mk (c :: rest)).data.dropWhile isSpaceChar = c :: rest := by
      simp [List.dropWhile_cons, hcs]
    have hpre : digitsPrefixVal (c :: rest) = some n := by
      have hall : ∀ x ∈ c :: rest, isDigitChar x = true := by
        intro x hx
        exact hdig x (hd ▸ hx)
      have hv : digitsVal (c :: rest) = n := hd ▸ hval
      simp [digitsPrefixVal, takeWhile_of_all hall, hv]
    rcases hsig with ⟨hm, hp⟩
    simp only [hdrop]
    split
    · rename_i rest' heq
      exact absurd (List.cons_eq_cons.mp heq).1 hm
    · rename_i rest' heq
      exact absurd (List.cons_eq_cons.mp heq).1 hp
    · simp [hpre]

theorem natKey_inj {a b : Nat} (h : natKey a = natKey b) : a = b := by
  have ha := parseIntJS_natKey a
  have hb := parseIntJS_natKey b
  rw [h, hb] at ha
  have h2 := Option.some.inj ha
  exact_mod_cast h2.symm

theorem natKey_ne_of_none {s : String} (hs : parseIntJS s = none) (n : Nat) :
    natKey n ≠ s := by
  intro h
  have h2 := parseIntJS_natKey n
  rw [h, hs] at h2
  exact Option.noConfusion h2

theorem nlookup_eq_some_mem {α : Type} {l : List (Nat × α)} {k : Nat} {v : α}
    (h : nlookup l k = some v) : (k, v) ∈ l := by
  induction l with
  | nil => simp [nlookup] at h
  | cons kv rest ih =>
    obtain ⟨k0, v0⟩ := kv
    by_cases h0 : k0 = k
    · subst h0
      simp [nlookup] at h
      simp [h]
    · simp [nlookup, h0] at h
      simp [ih h]

/-!
Heap preservation: on a heap in which no object carries a truthy
sequence-coercion marker, the merge — whether it completes or aborts with
any error — never changes an existing heap entry.  The only statement of
`applyWrites` that writes to an existing object is the
`delete retObj._immutableStagingConvertArray`, and it only fires on objects
whose marker is truthy; freshly allocated objects that do carry a truthy
marker lose it (and stay conv-falsy) inside the very call that allocates
them, so the invariant survives.
-/

theorem convFalsy_cons {heap : HeapL} {id : Nat} {ob : Obj}
    (h : ConvFalsy heap) (hob : truthyOpt (alookup ob.props convKey) = false) :
    ConvFalsy ((id, ob) :: heap) := by
  intro e he
  rcases List.mem_cons.mp he with he | he
  · rw [he]
    exact hob
  · exact h e he

theorem alookup_natKeyMap_none (l : List Nat) (f : Nat → Val) {q : String}
    (h : ∀ i : Nat, natKey i ≠ q) :
    alookup (l.map (fun i => (natKey i, f i))) q = none := by
  induction l with
  | nil => rfl
  | cons i rest ih => simp [alookup, h i, ih]

theorem nlookup_cons_self {α : Type} (l : List (Nat × α)) (k : Nat) (v : α) :
    nlookup ((k, v) :: l) k = some v := by
  simp [nlookup]

theorem goProps_heap_preserve (wc : WC) (recf : Nat → St → Except Err Nat × St)
    (hrec : ∀ obj st, ConvFalsy st.heap → (∀ id, (nlookup st.heap id).isSome → id < st.next) →
      (ConvFalsy (recf obj st).2.heap ∧
       (∀ id, (nlookup (recf obj st).2.heap id).isSome → id < (recf obj st).2.next) ∧
       st.next ≤ (recf obj st).2.next ∧
       (∀ id v, nlookup st.heap id = some v → nlookup (recf obj st).2.heap id = some v))) :
    ∀ (items : List (String × Val)) (patch : Props) (st : St),
      ConvFalsy st.heap → (∀ id, (nlookup st.heap id).isSome → id < st.next) →
      (ConvFalsy (goProps recf items patch st).2.heap ∧
       (∀ id, (nlookup (goProps recf items patch st).2.heap id).isSome →
          id < (goProps recf items patch st).2.next) ∧
       st.next ≤ (goProps recf items patch st).2.next ∧
       (∀ id v, nlookup st.heap id = some v →
          nlookup (goProps recf items patch st).2.heap id = some v)) := by
  intro items
  induction items with
  | nil =>
    intro patch st hc hb
    exact ⟨hc, hb, Nat.le_refl _, fun id v h => h⟩
  | cons kv rest ih =>
    intro patch st hc hb
    obtain ⟨k, v⟩ := kv
    by_cases hobj : typeofObject v = true
    · cases hun : unwrapNested st.heap v with
      | error e =>
        simp only [goProps, hobj, if_true, hun]
        exact ⟨hc, hb, Nat.le_refl _, fun id v h => h⟩
      | ok n =>
        by_cases happ : (nlookup st.applied n).isSome
        · simp only [goProps, hobj, if_true, hun, happ]
          exact ih _ st hc hb
        · have hrec1 := hrec n st hc hb
          cases hr : recf n st with
          | mk res st1 =>
            rw [hr] at hrec1
            obtain ⟨hc1, hb1, hn1, hp1⟩ := hrec1
            cases res with
            | error e =>
              simp only [goProps, hobj, if_true, hun, happ, Bool.false_eq_true, if_false, hr]
              exact ⟨hc1, hb1, hn1, hp1⟩
            | ok r =>
              simp only [goProps, hobj, if_true, hun, happ, Bool.false_eq_true, if_false, hr]
              have hmid := ih (if v ≠ (match nlookup st1.applied n with
                  | some r => Val.ref r
                  | none => Val.undef) then aset patch k (match nlookup st1.applied n with
                  | some r => Val.ref r
                  | none => Val.undef) else patch) st1 hc1 hb1
              refine ⟨hmid.1, hmid.2.1, Nat.le_trans hn1 hmid.2.2.1, ?_⟩
              intro id w hw
              exact hmid.2.2.2 id w (hp1 id w hw)
    · simp only [goProps, hobj, Bool.false_eq_true, if_false]
      exact ih patch st hc hb

theorem applyWrites_heap_preserve (wc : WC) :
    ∀ (fuel : Nat) (obj : Nat) (st : St),
      ConvFalsy st.heap → (∀ id, (nlookup st.heap id).isSome → id < st.next) →
      (ConvFalsy (applyWrites wc fuel obj st).2.heap ∧
       (∀ id, (nlookup (applyWrites wc fuel obj st).2.heap id).isSome →
          id < (applyWrites wc fuel obj st).2.next) ∧
       st.next ≤ (applyWrites wc fuel obj st).2.next ∧
       (∀ id v, nlookup st.heap id = some v →
          nlookup (applyWrites wc fuel obj st).2.heap id = some v)) := by
  intro fuel
  induction fuel with
  | zero =>
    intro obj st hc hb
    exact ⟨hc, hb, Nat.le_refl _, fun id v h => h⟩
  | succ fuel ih =>
    intro obj st hc hb
    cases hob : nlookup st.heap obj with
    | none =>
      simp only [applyWrites, hob]
      exact ⟨hc, hb, Nat.le_refl _, fun id v h => h⟩
    | some ob =>
      have hG := goProps_heap_preserve wc (applyWrites wc fuel) (fun o s => ih o s)
        (assignProps ob.props ((nlookup wc obj).getD []))
        ((nlookup wc obj).getD []) st hc hb
      cases hgo : goProps (applyWrites wc fuel)
          (assignProps ob.props ((nlookup wc obj).getD []))
          ((nlookup wc obj).getD []) st with
      | mk res st1 =>
        rw [hgo] at hG
        obtain ⟨hc1x, hb1x, hn1x, hp1x⟩ := hG
        have hc1 : ConvFalsy st1.heap := hc1x
        have hb1 : ∀ id, (nlookup st1.heap id).isSome = true → id < st1.next := hb1x
        have hn1 : st.next ≤ st1.next := hn1x
        have hp1 : ∀ id v, nlookup st.heap id = some v → nlookup st1.heap id = some v := hp1x
        clear hc1x hb1x hn1x hp1x
        cases res with
        | error e =>
          simp only [applyWrites, hob, hgo]
          exact ⟨hc1, hb1, hn1, hp1⟩
        | ok patchF =>
          by_cases hemp : patchF.isEmpty
          · simp only [applyWrites, hob, hgo, hemp, if_true]
            cases hro : nlookup st1.heap obj with
            | none =>
              simp only [hro]
              exact ⟨hc1, hb1, hn1, hp1⟩
            | some rob =>
              have hrc : truthyOpt (alookup rob.props convKey) = false :=
                hc1 (obj, rob) (nlookup_eq_some_mem hro)
              simp only [hro, hrc, Bool.false_eq_true, if_false]
              exact ⟨hc1, hb1, hn1, hp1⟩
          · simp only [applyWrites, hob, hgo, hemp, Bool.false_eq_true, if_false, alloc]
            simp only [nlookup_cons_self]
            by_cases hcv : truthyOpt (alookup (assignProps ob.props patchF) convKey) = true
            · simp only [hcv, if_true]
              simp only [nset, if_pos rfl]
              have hconvNone : ∀ i : Nat, natKey i ≠ convKey :=
                natKey_ne_of_none (by decide)
              refine ⟨?_, ?_, ?_, ?_⟩
              · apply convFalsy_cons
                · apply convFalsy_cons hc1
                  rw [alookup_adel_self]
                  rfl
                · rw [alookup_natKeyMap_none _ _ hconvNone]
                  rfl
              · intro id hid
                simp only [nlookup] at hid
                by_cases h1 : st1.next + 1 = id
                · omega
                · rw [if_neg h1] at hid
                  by_cases h2 : st1.next = id
                  · omega
                  · rw [if_neg h2] at hid
                    have := hb1 id hid
                    omega
              · omega
              · intro id v hv
                have h1 := hp1 id v hv
                have h2 : id < st1.next := hb1 id (by rw [h1]; rfl)
                have h3 : ¬ st1.next + 1 = id := by omega
                have h4 : ¬ st1.next = id := by omega
                simp only [nlookup]
                rw [if_neg h3, if_neg h4]
                exact h1
            · rw [if_neg hcv]
              refine ⟨?_, ?_, ?_, ?_⟩
              · exact convFalsy_cons hc1 (Bool.eq_false_iff.mpr hcv)
              · intro id hid
                show id < st1.next + 1
                simp only [nlookup] at hid
                by_cases h2 : st1.next = id
                · omega
                · rw [if_neg h2] at hid
                  have := hb1 id hid
                  omega
              · show st.next ≤ st1.next + 1
                omega
              · intro id v hv
                have h1 := hp1 id v hv
                have h2 : id < st1.next := hb1 id (by rw [h1]; rfl)
                simp only [nlookup]
                rw [if_neg (by omega : ¬ st1.next = id)]
                exact h1

/-! Auxiliary lemmas for the merge-correctness induction. -/

theorem alookup_none_of_keys_ne {α : Type} {l : List (String × α)} {q : String}
    (h : ∀ kv ∈ l, ¬ kv.1 = q) : alookup l q = none := by
  induction l with
  | nil => rfl
  | cons kv rest ih =>
    obtain ⟨k0, v0⟩ := kv
    simp [alookup, h (k0, v0) (by simp)]
    exact ih (fun kv hkv => h kv (by simp [hkv]))

theorem closed_props_facts {heap0 : HeapL} (hH1 : ClosedWF heap0) {m : Nat} {ob : Obj}
    (hm : nlookup heap0 m = some ob) :
    (keysOf ob.props).Nodup ∧
    ∀ kv ∈ ob.props, kv.1 ≠ wrappedKey ∧ kv.1 ≠ convKey ∧ valRefOkB heap0 kv.2 = true :=
  hH1 (m, ob) (nlookup_eq_some_mem hm)

theorem closed_no_wrapped {heap0 : HeapL} (hH1 : ClosedWF heap0) {m : Nat} {ob : Obj}
    (hm : nlookup heap0 m = some ob) : alookup ob.props wrappedKey = none :=
  alookup_none_of_keys_ne (fun kv hkv => ((closed_props_facts hH1 hm).2 kv hkv).1)

theorem closed_no_conv {heap0 : HeapL} (hH1 : ClosedWF heap0) {m : Nat} {ob : Obj}
    (hm : nlookup heap0 m = some ob) : alookup ob.props convKey = none :=
  alookup_none_of_keys_ne (fun kv hkv => ((closed_props_facts hH1 hm).2 kv hkv).2.1)

theorem unwrap_ref {heap0 : HeapL} (hH1 : ClosedWF heap0) {c : Nat} {cob : Obj}
    (hc : nlookup heap0 c = some cob) : unwrapNested heap0 (Val.ref c) = .ok c := by
  simp only [unwrapNested, hc, closed_no_wrapped hH1 hc]

theorem unwrap_agree {heap0 : HeapL} {wc : WC} {st : St} (hH1 : ClosedWF heap0)
    (hInv : StInv heap0 wc st) {v : Val}
    (hv : ∀ c, v = Val.ref c → (nlookup heap0 c).isSome) :
    unwrapNested st.heap v = unwrapNested heap0 v := by
  cases v with
  | ref c =>
    cases hc : nlookup heap0 c with
    | none =>
      have := hv c rfl
      rw [hc] at this
      exact Bool.noConfusion this
    | some cob =>
      simp only [unwrapNested, hc, hInv.agree c cob hc]
  | proxyRef t => rfl
  | null => rfl
  | num n => rfl
  | str s => rfl
  | bool b => rfl
  | undef => rfl
  | fn => rfl

theorem unwrap_dom {heap0 : HeapL} (hH1 : ClosedWF heap0) {v : Val} {c : Nat}
    (hr : ∀ c0, v = Val.ref c0 → (nlookup heap0 c0).isSome)
    (hp : ∀ t, v = Val.proxyRef t → (nlookup heap0 t).isSome)
    (hu : unwrapNested heap0 v = .ok c) : (nlookup heap0 c).isSome := by
  cases v with
  | ref c0 =>
    cases hc : nlookup heap0 c0 with
    | none =>
      have := hr c0 rfl
      rw [hc] at this
      exact Bool.noConfusion this
    | some cob =>
      rw [unwrap_ref hH1 hc] at hu
      cases hu
      rw [hc]
      rfl
  | proxyRef t =>
    cases hu
    exact hp _ rfl
  | null => exact Except.noConfusion hu
  | num n => exact Except.noConfusion hu
  | str s => exact Except.noConfusion hu
  | bool b => exact Except.noConfusion hu
  | undef => exact Except.noConfusion hu
  | fn => exact Except.noConfusion hu

theorem clean_entryEmpty {heap0 : HeapL} {wc : WC} {m : Nat}
    (h : Clean heap0 wc m) : entryEmpty wc m := h m (.refl m)

theorem clean_step {heap0 : HeapL} {wc : WC} {m c : Nat} {ob : Obj} {k : String}
    (h : Clean heap0 wc m) (hm : nlookup heap0 m = some ob)
    (hk : alookup ob.props k = some (.ref c)) : Clean heap0 wc c :=
  fun q hq => h q (.step k ob hm hk hq)

theorem notClean_destruct {heap0 : HeapL} {wc : WC} {m : Nat} {ob : Obj}
    (h : ¬ Clean heap0 wc m) (hm : nlookup heap0 m = some ob)
    (he : entryEmpty wc m) :
    ∃ k c, alookup ob.props k = some (.ref c) ∧ ¬ Clean heap0 wc c := by
  unfold Clean at h
  push_neg at h
  obtain ⟨q, hq, hbad⟩ := h
  cases hq with
  | refl => exact absurd he hbad
  | step k ob' hm' hk' hr =>
    have hob : ob' = ob := by
      rw [hm'] at hm
      exact Option.some.inj hm
    subst hob
    exact ⟨k, _, hk', fun hcl => hbad (hcl q hr)⟩

theorem appliedFact_mono {heap0 : HeapL} {wc : WC} {st st' : St} {m r : Nat}
    (h : AppliedFact heap0 wc st m r) (hmono : StMono st st') :
    AppliedFact heap0 wc st' m r := by
  obtain ⟨rob, hrob, hnp, hpf⟩ := h.resObj
  exact { src := h.src, idIff := h.idIff, fresh := h.fresh,
          resObj := ⟨rob, hmono.heap r rob hrob, hnp, fun hcv k v hk =>
            ⟨fun hobj =>
              (hpf hcv k v hk).1 hobj |>.elim (fun c hc =>
                ⟨c, hc.choose, hc.choose_spec.1, hmono.applied _ _ hc.choose_spec.2.1,
                 hc.choose_spec.2.2⟩),
             fun hobj => (hpf hcv k v hk).2 hobj⟩⟩ }

theorem patched_itemsWF {heap0 : HeapL} {wc : WC} (hH1 : ClosedWF heap0)
    (hH2 : WCWF heap0 wc) {m : Nat} {ob : Obj} (hm : nlookup heap0 m = some ob) :
    ItemsWF heap0 (assignProps ob.props ((nlookup wc m).getD [])) := by
  constructor
  · exact nodup_keys_assign _ (closed_props_facts hH1 hm).1
  · intro kv hkv
    rcases mem_assignProps hkv with h | h
    · have hf := ((closed_props_facts hH1 hm).2 kv h).2.2
      constructor
      · intro c hc
        rw [hc] at hf
        exact hf
      · intro t ht
        rw [ht] at hf
        exact Bool.noConfusion hf
    · cases hwc : nlookup wc m with
      | none =>
        rw [hwc] at h
        simp at h
      | some e =>
        rw [hwc] at h
        simp at h
        have hf := (hH2 (m, e) (nlookup_eq_some_mem hwc)).2.2 kv h |>.1
        constructor
        · intro c hc
          rw [hc] at hf
          exact hf
        · intro t ht
          rw [ht] at hf
          exact hf

theorem rank_edge {heap0 : HeapL} {wc : WC} {rank : Nat → Nat}
    (hH1 : ClosedWF heap0) (hH2 : WCWF heap0 wc) (hRank : RankWF heap0 wc rank)
    {m : Nat} {ob : Obj} (hm : nlookup heap0 m = some ob) {kv : String × Val} {c : Nat}
    (hkv : kv ∈ assignProps ob.props ((nlookup wc m).getD []))
    (hu : unwrapNested heap0 kv.2 = .ok c) : rank c < rank m := by
  rcases mem_assignProps hkv with h | h
  · have hrk := hRank.1 (m, ob) (nlookup_eq_some_mem hm) kv h
    have hf := ((closed_props_facts hH1 hm).2 kv h).2.2
    cases hv : kv.2 with
    | ref c0 =>
      rw [hv] at hf hu hrk
      cases hc0 : nlookup heap0 c0 with
      | none =>
        simp [valRefOkB, hc0] at hf
      | some cob =>
        rw [unwrap_ref hH1 hc0] at hu
        cases hu
        simpa [edgeRankB] using hrk
    | proxyRef t =>
      rw [hv] at hf
      simp [valRefOkB] at hf
    | null => rw [hv] at hu; exact Except.noConfusion hu
    | num n => rw [hv] at hu; exact Except.noConfusion hu
    | str s => rw [hv] at hu; exact Except.noConfusion hu
    | bool b => rw [hv] at hu; exact Except.noConfusion hu
    | undef => rw [hv] at hu; exact Except.noConfusion hu
    | fn => rw [hv] at hu; exact Except.noConfusion hu
  · cases hwc : nlookup wc m with
    | none =>
      rw [hwc] at h
      simp at h
    | some e =>
      rw [hwc] at h
      simp at h
      have hrk := hRank.2 (m, e) (nlookup_eq_some_mem hwc) kv h
      have hf := (hH2 (m, e) (nlookup_eq_some_mem hwc)).2.2 kv h |>.1
      cases hv : kv.2 with
      | ref c0 =>
        rw [hv] at hf hu hrk
        cases hc0 : nlookup heap0 c0 with
        | none =>
          simp [patchValOkB, hc0] at hf
        | some cob =>
          rw [unwrap_ref hH1 hc0] at hu
          cases hu
          simpa [edgeRankB] using hrk
      | proxyRef t =>
        rw [hv] at hu hrk
        cases hu
        simpa [edgeRankB] using hrk
      | null => rw [hv] at hu; exact Except.noConfusion hu
      | num n => rw [hv] at hu; exact Except.noConfusion hu
      | str s => rw [hv] at hu; exact Except.noConfusion hu
      | bool b => rw [hv] at hu; exact Except.noConfusion hu
      | undef => rw [hv] at hu; exact Except.noConfusion hu
      | fn => rw [hv] at hu; exact Except.noConfusion hu

theorem alookup_none_of_not_mem_keys {α : Type} {l : List (String × α)} {k : String}
    (h : k ∉ keysOf l) : alookup l k = none := by
  cases hh : alookup l k with
  | none => rfl
  | some v => exact absurd (List.mem_map.mpr ⟨(k, v), alookup_eq_some_mem hh, rfl⟩) h

theorem goProps_master (heap0 : HeapL) (wc : WC) (rank : Nat → Nat)
    (hH1 : ClosedWF heap0) (hH2 : WCWF heap0 wc) (fuel : Nat)
    (hA : MasterA heap0 wc rank fuel) :
    MasterG heap0 wc rank (applyWrites wc fuel) := by
  intro items
  induction items with
  | nil =>
    intro patch st hInv hItems hNodup
    simp only [goProps]
    refine ⟨hInv, ⟨fun id v h => h, Nat.le_refl _, fun m r h => h⟩, ?_, ?_⟩
    · intro m hm0 hm1
      rw [hm0] at hm1
      exact Bool.noConfusion hm1
    · intro patchF hok
      cases hok
      refine ⟨hNodup, fun k _ => rfl, fun k v _ _ => rfl, fun k v hk _ => ?_⟩
      exact absurd hk (by simp [alookup])
  | cons kv0 rest ih =>
    intro patch st hInv hItems hNodup
    obtain ⟨k0, v0⟩ := kv0
    have hNodupI := List.nodup_cons.mp (show (k0 :: keysOf rest).Nodup from hItems.1)
    have hItemsRest : ItemsWF heap0 rest :=
      ⟨hNodupI.2, fun kv hkv => hItems.2 kv (List.mem_cons_of_mem _ hkv)⟩
    have hrestK0 : alookup rest k0 = none := alookup_none_of_not_mem_keys hNodupI.1
    by_cases hobj : typeofObject v0 = true
    · -- composite head
      have hv0 := hItems.2 (k0, v0) (List.mem_cons_self _ _)
      cases hun : unwrapNested st.heap v0 with
      | error e =>
        simp only [goProps, hobj, if_true, hun]
        refine ⟨hInv, ⟨fun id v h => h, Nat.le_refl _, fun m r h => h⟩, ?_, ?_⟩
        · intro m hm0 hm1
          rw [hm0] at hm1
          exact Bool.noConfusion hm1
        · intro patchF hok
          exact Except.noConfusion hok
      | ok n =>
        have hunH : unwrapNested heap0 v0 = .ok n := by
          rw [← unwrap_agree hH1 hInv hv0.1]
          exact hun
        have hndom : (nlookup heap0 n).isSome := unwrap_dom hH1 hv0.1 hv0.2 hunH
        by_cases happ : (nlookup st.applied n).isSome
        · -- memoized child
          cases hrn : nlookup st.applied n with
          | none =>
            rw [hrn] at happ
            exact Bool.noConfusion happ
          | some rn =>
            simp only [goProps, hobj, if_true, hun, hrn, Option.isSome_some]
            have hih := ih (if v0 ≠ Val.ref rn then aset patch k0 (Val.ref rn) else patch)
              st hInv hItemsRest (by
                by_cases hne : v0 = Val.ref rn
                · simp [hne]
                  exact hNodup
                · simp [hne]
                  exact nodup_keys_aset hNodup k0 (Val.ref rn))
            obtain ⟨hInv2, hMono2, hRankN2, hPF2⟩ := hih
            refine ⟨hInv2, hMono2, ?_, ?_⟩
            · intro m hm0 hm1
              obtain ⟨kv, hkv, hko, c, hc, hrk⟩ := hRankN2 m hm0 hm1
              exact ⟨kv, List.mem_cons_of_mem _ hkv, hko, c, hc, hrk⟩
            · intro patchF hok
              obtain ⟨hN, ha, hb, hc⟩ := hPF2 patchF hok
              refine ⟨hN, ?_, ?_, ?_⟩
              · intro k hk
                have hk0 : ¬ k0 = k := by
                  intro hc0
                  subst hc0
                  simp [alookup] at hk
                have hkrest : alookup rest k = none := by
                  simpa [alookup, hk0] using hk
                rw [ha k hkrest]
                by_cases hne : v0 = Val.ref rn
                · simp [hne]
                · simp [hne]
                  exact alookup_aset_ne patch _ (fun hh => hk0 hh.symm)
              · intro k v hk hvobj
                have hk0 : ¬ k0 = k := by
                  intro hc0
                  subst hc0
                  simp [alookup] at hk
                  rw [← hk] at hvobj
                  rw [hobj] at hvobj
                  exact Bool.noConfusion hvobj
                have hkrest : alookup rest k = some v := by
                  simpa [alookup, hk0] using hk
                rw [hb k v hkrest hvobj]
                by_cases hne : v0 = Val.ref rn
                · simp [hne]
                · simp [hne]
                  exact alookup_aset_ne patch _ (fun hh => hk0 hh.symm)
              · intro k v hk hvobj
                by_cases hk0 : k0 = k
                · subst hk0
                  have hv : v0 = v := by
                    simp [alookup] at hk
                    exact hk
                  subst hv
                  refine ⟨n, rn, hunH, hMono2.applied n rn hrn, ?_⟩
                  by_cases hne : v0 = Val.ref rn
                  · left
                    refine ⟨hne, ?_⟩
                    have : (if v0 ≠ Val.ref rn then aset patch k0 (Val.ref rn) else patch)
                        = patch := by simp [hne]
                    rw [this] at ha
                    exact ha k0 hrestK0
                  · right
                    refine ⟨hne, ?_⟩
                    have : (if v0 ≠ Val.ref rn then aset patch k0 (Val.ref rn) else patch)
                        = aset patch k0 (Val.ref rn) := by simp [hne]
                    rw [this] at ha
                    rw [ha k0 hrestK0]
                    exact alookup_aset_self patch k0 (Val.ref rn)
                · have hkrest : alookup rest k = some v := by
                    simpa [alookup, hk0] using hk
                  obtain ⟨c, rc, hu, hap, hdis⟩ := hc k v hkrest hvobj
                  refine ⟨c, rc, hu, hap, ?_⟩
                  rcases hdis with ⟨h1, h2⟩ | ⟨h1, h2⟩
                  · left
                    refine ⟨h1, ?_⟩
                    rw [h2]
                    by_cases hne : v0 = Val.ref rn
                    · simp [hne]
                    · simp [hne]
                      exact alookup_aset_ne patch _ (fun hh => hk0 hh.symm)
                  · right
                    exact ⟨h1, h2⟩
        · -- recursive call on the child
          have hnone : nlookup st.applied n = none := by
            cases hh : nlookup st.applied n with
            | none => rfl
            | some r =>
              rw [hh] at happ
              simp at happ
          have hAn := hA n st hInv hnone hndom
          cases hr : applyWrites wc fuel n st with
          | mk res1 st1 =>
            rw [hr] at hAn
            have hInv1 : StInv heap0 wc st1 := hAn.1
            have hMono1 : StMono st st1 := hAn.2.1
            have hRank1 : ∀ m, nlookup st.applied m = none →
                (nlookup st1.applied m).isSome → rank m ≤ rank n := hAn.2.2.1
            cases res1 with
            | error e =>
              simp only [goProps, hobj, if_true, hun, hnone, Option.isSome_none,
                Bool.false_eq_true, if_false, hr]
              refine ⟨hInv1, hMono1, ?_, ?_⟩
              · intro m hm0 hm1
                exact ⟨(k0, v0), List.mem_cons_self _ _, hobj, n, hunH, hRank1 m hm0 hm1⟩
              · intro patchF hok
                exact Except.noConfusion hok
            | ok r =>
              have hOk1 : nlookup st1.applied n = some r := hAn.2.2.2 r rfl
              simp only [goProps, hobj, if_true, hun, hnone, Option.isSome_none,
                Bool.false_eq_true, if_false, hr, hOk1]
              have hih := ih (if v0 ≠ Val.ref r then aset patch k0 (Val.ref r) else patch)
                st1 hInv1 hItemsRest (by
                  by_cases hne : v0 = Val.ref r
                  · simp [hne]
                    exact hNodup
                  · simp [hne]
                    exact nodup_keys_aset hNodup k0 (Val.ref r))
              obtain ⟨hInv2, hMono2, hRankN2, hPF2⟩ := hih
              refine ⟨hInv2, ?_, ?_, ?_⟩
              · exact ⟨fun id v h => hMono2.heap id v (hMono1.heap id v h),
                  Nat.le_trans hMono1.next hMono2.next,
                  fun m rr h => hMono2.applied m rr (hMono1.applied m rr h)⟩
              · intro m hm0 hm1
                cases hm1' : nlookup st1.applied m with
                | some rr =>
                  exact ⟨(k0, v0), List.mem_cons_self _ _, hobj, n, hunH,
                    hRank1 m hm0 (by rw [hm1']; rfl)⟩
                | none =>
                  obtain ⟨kv, hkv, hko, c, hcu, hrk⟩ := hRankN2 m hm1' hm1
                  exact ⟨kv, List.mem_cons_of_mem _ hkv, hko, c, hcu, hrk⟩
              · intro patchF hok
                obtain ⟨hN, ha, hb, hc⟩ := hPF2 patchF hok
                refine ⟨hN, ?_, ?_, ?_⟩
                · intro k hk
                  have hk0 : ¬ k0 = k := by
                    intro hc0
                    subst hc0
                    simp [alookup] at hk
                  have hkrest : alookup rest k = none := by
                    simpa [alookup, hk0] using hk
                  rw [ha k hkrest]
                  by_cases hne : v0 = Val.ref r
                  · simp [hne]
                  · simp [hne]
                    exact alookup_aset_ne patch _ (fun hh => hk0 hh.symm)
                · intro k v hk hvobj
                  have hk0 : ¬ k0 = k := by
                    intro hc0
                    subst hc0
                    simp [alookup] at hk
                    rw [← hk] at hvobj
                    rw [hobj] at hvobj
                    exact Bool.noConfusion hvobj
                  have hkrest : alookup rest k = some v := by
                    simpa [alookup, hk0] using hk
                  rw [hb k v hkrest hvobj]
                  by_cases hne : v0 = Val.ref r
                  · simp [hne]
                  · simp [hne]
                    exact alookup_aset_ne patch _ (fun hh => hk0 hh.symm)
                · intro k v hk hvobj
                  by_cases hk0 : k0 = k
                  · subst hk0
                    have hv : v0 = v := by
                      simp [alookup] at hk
                      exact hk
                    subst hv
                    refine ⟨n, r, hunH, hMono2.applied n r hOk1, ?_⟩
                    by_cases hne : v0 = Val.ref r
                    · left
                      refine ⟨hne, ?_⟩
                      have : (if v0 ≠ Val.ref r then aset patch k0 (Val.ref r) else patch)
                          = patch := by simp [hne]
                      rw [this] at ha
                      exact ha k0 hrestK0
                    · right
                      refine ⟨hne, ?_⟩
                      have : (if v0 ≠ Val.ref r then aset patch k0 (Val.ref r) else patch)
                          = aset patch k0 (Val.ref r) := by simp [hne]
                      rw [this] at ha
                      rw [ha k0 hrestK0]
                      exact alookup_aset_self patch k0 (Val.ref r)
                  · have hkrest : alookup rest k = some v := by
                      simpa [alookup, hk0] using hk
                    obtain ⟨c, rc, hu, hap, hdis⟩ := hc k v hkrest hvobj
                    refine ⟨c, rc, hu, hap, ?_⟩
                    rcases hdis with ⟨h1, h2⟩ | ⟨h1, h2⟩
                    · left
                      refine ⟨h1, ?_⟩
                      rw [h2]
                      by_cases hne : v0 = Val.ref r
                      · simp [hne]
                      · simp [hne]
                        exact alookup_aset_ne patch _ (fun hh => hk0 hh.symm)
                    · right
                      exact ⟨h1, h2⟩
    · -- non-composite head: skipped by the loop
      simp only [goProps, hobj, Bool.false_eq_true, if_false]
      have hih := ih patch st hInv hItemsRest hNodup
      obtain ⟨hInv2, hMono2, hRankN2, hPF2⟩ := hih
      refine ⟨hInv2, hMono2, ?_, ?_⟩
      · intro m hm0 hm1
        obtain ⟨kv, hkv, hko, c, hcu, hrk⟩ := hRankN2 m hm0 hm1
        exact ⟨kv, List.mem_cons_of_mem _ hkv, hko, c, hcu, hrk⟩
      · intro patchF hok
        obtain ⟨hN, ha, hb, hc⟩ := hPF2 patchF hok
        refine ⟨hN, ?_, ?_, ?_⟩
        · intro k hk
          have hk0 : ¬ k0 = k := by
            intro hc0
            subst hc0
            simp [alookup] at hk
          exact ha k (by simpa [alookup, hk0] using hk)
        · intro k v hk hvobj
          by_cases hk0 : k0 = k
          · subst hk0
            have hv : v = v0 := by
              simp [alookup] at hk
              exact hk.symm
            subst hv
            exact ha k0 hrestK0
          · exact hb k v (by simpa [alookup, hk0] using hk) hvobj
        · intro k v hk hvobj
          by_cases hk0 : k0 = k
          · subst hk0
            have hv : v = v0 := by
              simp [alookup] at hk
              exact hk.symm
            subst hv
            rw [hvobj] at hobj
            exact absurd rfl hobj
          · exact hc k v (by simpa [alookup, hk0] using hk) hvobj

theorem noproxy_of_valRefOk {heap0 : HeapL} {v : Val} (hf : valRefOkB heap0 v = true) :
    isProxy v = false := by
  cases v <;> simp_all [valRefOkB, isProxy]

theorem noproxy_of_not_object {v : Val} (h : ¬ typeofObject v = true) :
    isProxy v = false := by
  cases v <;> simp_all [typeofObject, isProxy]

theorem nset_cons_self {α : Type} (l : List (Nat × α)) (k : Nat) (v w : α) :
    nset ((k, v) :: l) k w = (k, w) :: l := by
  simp [nset]

theorem applyWrites_master (heap0 : HeapL) (wc : WC) (rank : Nat → Nat)
    (hH1 : ClosedWF heap0) (hH2 : WCWF heap0 wc) (hRank : RankWF heap0 wc rank) :
    ∀ fuel, MasterA heap0 wc rank fuel := by
  intro fuel
  induction fuel with
  | zero =>
    intro obj st hInv hnone hdom
    simp only [applyWrites]
    refine ⟨hInv, ⟨fun id v h => h, Nat.le_refl _, fun m r h => h⟩, ?_, ?_⟩
    · intro m hm0 hm1
      have hm1' : (nlookup st.applied m).isSome = true := hm1
      rw [hm0] at hm1'
      exact Bool.noConfusion hm1'
    · intro r hok
      exact Except.noConfusion hok
  | succ fuel ih =>
    intro obj st hInv hnone hdom
    cases hob : nlookup heap0 obj with
    | none =>
      rw [hob] at hdom
      exact Bool.noConfusion hdom
    | some ob =>
    have hsob : nlookup st.heap obj = some ob := hInv.agree obj ob hob
    have hNodup0 : (keysOf ((nlookup wc obj).getD [])).Nodup := by
      cases hwc : nlookup wc obj with
      | none => simp [keysOf]
      | some e => exact (hH2 (obj, e) (nlookup_eq_some_mem hwc)).2.1
    have hG := goProps_master heap0 wc rank hH1 hH2 fuel ih
    have hGi := hG (assignProps ob.props ((nlookup wc obj).getD []))
      ((nlookup wc obj).getD []) st hInv (patched_itemsWF hH1 hH2 hob) hNodup0
    cases hgr : goProps (applyWrites wc fuel)
        (assignProps ob.props ((nlookup wc obj).getD []))
        ((nlookup wc obj).getD []) st with
    | mk gres st1 =>
    rw [hgr] at hGi
    have hInv1 : StInv heap0 wc st1 := hGi.1
    have hMono1 : StMono st st1 := hGi.2.1
    have hRankG : ∀ m, nlookup st.applied m = none → (nlookup st1.applied m).isSome →
        ∃ kv ∈ assignProps ob.props ((nlookup wc obj).getD []), typeofObject kv.2 = true ∧
          ∃ c, unwrapNested heap0 kv.2 = .ok c ∧ rank m ≤ rank c := hGi.2.2.1
    have hRankLt : ∀ m, nlookup st.applied m = none → (nlookup st1.applied m).isSome →
        rank m < rank obj := by
      intro m hm0 hm1
      obtain ⟨kv, hkv, hko, c, hu, hrk⟩ := hRankG m hm0 hm1
      exact Nat.lt_of_le_of_lt hrk (rank_edge hH1 hH2 hRank hob hkv hu)
    have hobj1 : nlookup st1.applied obj = none := by
      cases hh : nlookup st1.applied obj with
      | none => rfl
      | some r =>
        have := hRankLt obj hnone (by rw [hh]; rfl)
        exact absurd this (Nat.lt_irrefl _)
    have hs1ob : nlookup st1.heap obj = some ob := hMono1.heap obj ob hsob
    have hobjlt : obj < st1.next := hInv1.bound obj (by rw [hs1ob]; rfl)
    have hfresh1 : nlookup st1.heap st1.next = none := by
      cases hh : nlookup st1.heap st1.next with
      | none => rfl
      | some o =>
        have := hInv1.bound st1.next (by rw [hh]; rfl)
        exact absurd this (Nat.lt_irrefl _)
    have hfresh0 : nlookup heap0 st1.next = none := by
      cases hh : nlookup heap0 st1.next with
      | none => rfl
      | some o =>
        have h2 := hInv1.agree _ _ hh
        rw [hfresh1] at h2
        exact Option.noConfusion h2
    have hfresh0' : nlookup heap0 (st1.next + 1) = none := by
      cases hh : nlookup heap0 (st1.next + 1) with
      | none => rfl
      | some o =>
        have h2 := hInv1.bound (st1.next + 1) (by rw [hInv1.agree _ _ hh]; rfl)
        exact absurd h2 (by omega)
    cases gres with
    | error e =>
      simp only [applyWrites, hsob, hgr]
      refine ⟨hInv1, hMono1, ?_, ?_⟩
      · intro m hm0 hm1
        exact Nat.le_of_lt (hRankLt m hm0 hm1)
      · intro r hok
        exact Except.noConfusion hok
    | ok patchF =>
    obtain ⟨hNF, ha, hb, hc0⟩ := hGi.2.2.2 patchF rfl
    have hc' : ∀ k v, alookup (assignProps ob.props ((nlookup wc obj).getD [])) k = some v →
        typeofObject v = true →
        ∃ c rc, unwrapNested heap0 v = .ok c ∧ nlookup st1.applied c = some rc ∧
          ((v = Val.ref rc ∧ alookup patchF k = alookup ((nlookup wc obj).getD []) k) ∨
           (v ≠ Val.ref rc ∧ alookup patchF k = some (.ref rc))) := hc0
    have hkeep : ∀ k v, alookup ((nlookup wc obj).getD []) k = some v →
        alookup patchF k ≠ none := by
      intro k v hk
      have hpk : alookup (assignProps ob.props ((nlookup wc obj).getD [])) k = some v :=
        alookup_assign_of_some _ hNodup0 hk
      by_cases hvo : typeofObject v = true
      · obtain ⟨c, rc, hu, hap, hdis⟩ := hc' k v hpk hvo
        rcases hdis with ⟨h1, h2⟩ | ⟨h1, h2⟩
        · rw [h2, hk]
          exact fun hh => Option.noConfusion hh
        · rw [h2]
          exact fun hh => Option.noConfusion hh
      · have h2 := hb k v hpk (by simpa using hvo)
        rw [h2, hk]
        exact fun hh => Option.noConfusion hh
    have hp0nil : patchF = [] → (nlookup wc obj).getD [] = [] := by
      intro hpf
      cases hq : (nlookup wc obj).getD [] with
      | nil => rfl
      | cons kv0 rest0 =>
        have hlk : alookup ((nlookup wc obj).getD []) kv0.1 = some kv0.2 := by
          rw [hq]
          obtain ⟨a, b⟩ := kv0
          simp [alookup]
        have h2 := hkeep kv0.1 kv0.2 hlk
        rw [hpf] at h2
        exact (h2 rfl).elim
    have hClean : patchF = [] → Clean heap0 wc obj := by
      intro hpf
      have hp0 : (nlookup wc obj).getD [] = [] := hp0nil hpf
      have hee : entryEmpty wc obj := by
        intro e he
        rw [he] at hp0
        exact hp0
      have hchild : ∀ k c, alookup ob.props k = some (.ref c) → Clean heap0 wc c := by
        intro k c hk
        have hf := ((closed_props_facts hH1 hob).2 (k, .ref c) (alookup_eq_some_mem hk)).2.2
        have hdomc : (nlookup heap0 c).isSome := by simpa [valRefOkB] using hf
        cases hcob : nlookup heap0 c with
        | none =>
          rw [hcob] at hdomc
          exact Bool.noConfusion hdomc
        | some cob =>
        have hpk : alookup (assignProps ob.props ((nlookup wc obj).getD [])) k
            = some (.ref c) := by
          rw [hp0]
          simp only [assignProps, List.foldl_nil]
          exact hk
        obtain ⟨c', rc, hu, hap, hdis⟩ := hc' k (.ref c) hpk (by simp [typeofObject])
        rw [unwrap_ref hH1 hcob] at hu
        injection hu with hcc
        subst hcc
        rcases hdis with ⟨h1, h2⟩ | ⟨h1, h2⟩
        · injection h1 with h3
          subst h3
          exact ((hInv1.good c c hap).idIff).mp rfl
        · rw [hpf] at h2
          exact absurd h2 (by simp [alookup])
      intro q hq
      cases hq with
      | refl => exact hee
      | step k ob2 hm hk hq2 =>
        rw [hob] at hm
        injection hm with hm2
        subst hm2
        exact hchild k _ hk q hq2
    have hNotClean : ∀ k0 w0, alookup patchF k0 = some w0 → ¬ Clean heap0 wc obj := by
      intro k0 w0 hk0 hcl
      have hp0 : (nlookup wc obj).getD [] = [] := by
        cases hwc : nlookup wc obj with
        | none => rfl
        | some e => exact (clean_entryEmpty hcl) e hwc
      cases hik : alookup ob.props k0 with
      | none =>
        have hik' : alookup (assignProps ob.props ((nlookup wc obj).getD [])) k0 = none := by
          rw [hp0]
          simp only [assignProps, List.foldl_nil]
          exact hik
        have h2 := ha k0 hik'
        rw [hp0] at h2
        rw [hk0] at h2
        exact absurd h2.symm (by simp [alookup])
      | some v =>
      have hpk : alookup (assignProps ob.props ((nlookup wc obj).getD [])) k0 = some v := by
        rw [hp0]
        simp only [assignProps, List.foldl_nil]
        exact hik
      by_cases hvo : typeofObject v = true
      · have hf := ((closed_props_facts hH1 hob).2 (k0, v) (alookup_eq_some_mem hik)).2.2
        obtain ⟨c, rc, hu, hap, hdis⟩ := hc' k0 v hpk hvo
        cases hv : v with
        | null =>
          rw [hv] at hu
          exact Except.noConfusion hu
        | proxyRef t =>
          rw [hv] at hf
          simp [valRefOkB] at hf
        | ref c0 =>
          rw [hv] at hf hu
          have hdomc : (nlookup heap0 c0).isSome := by simpa [valRefOkB] using hf
          cases hcob : nlookup heap0 c0 with
          | none =>
            rw [hcob] at hdomc
            exact Bool.noConfusion hdomc
          | some cob =>
          rw [unwrap_ref hH1 hcob] at hu
          injection hu with hcc
          subst hcc
          rw [hv] at hdis
          rcases hdis with ⟨h1, h2⟩ | ⟨h1, h2⟩
          · rw [hp0] at h2
            rw [hk0] at h2
            exact absurd h2.symm (by simp [alookup])
          · have hne : rc ≠ c0 := fun hh => h1 (by rw [hh])
            have hncc : ¬ Clean heap0 wc c0 :=
              fun hcc => hne (((hInv1.good c0 rc hap).idIff).mpr hcc)
            rw [hv] at hik
            exact hncc (clean_step hcl hob hik)
        | num n => rw [hv] at hu; exact Except.noConfusion hu
        | str s => rw [hv] at hu; exact Except.noConfusion hu
        | bool b => rw [hv] at hu; exact Except.noConfusion hu
        | undef => rw [hv] at hu; exact Except.noConfusion hu
        | fn => rw [hv] at hu; exact Except.noConfusion hu
      · have h2 := hb k0 v hpk (by simpa using hvo)
        rw [hp0] at h2
        rw [hk0] at h2
        exact absurd h2.symm (by simp [alookup])
    have hNP : ∀ kv ∈ patchF, isProxy kv.2 = false := by
      intro kv hkv
      have hlk : alookup patchF kv.1 = some kv.2 := by
        obtain ⟨a, b⟩ := kv
        exact alookup_of_mem_nodup hNF hkv
      cases hik : alookup (assignProps ob.props ((nlookup wc obj).getD [])) kv.1 with
      | none =>
        have h1 := ha kv.1 hik
        rw [hlk] at h1
        have h2 : alookup (assignProps ob.props ((nlookup wc obj).getD [])) kv.1
            = some kv.2 := alookup_assign_of_some _ hNodup0 h1.symm
        rw [hik] at h2
        exact Option.noConfusion h2
      | some v =>
      by_cases hvo : typeofObject v = true
      · obtain ⟨c, rc, hu, hap, hdis⟩ := hc' kv.1 v hik hvo
        rcases hdis with ⟨h1, h2⟩ | ⟨h1, h2⟩
        · cases hp0k : alookup ((nlookup wc obj).getD []) kv.1 with
          | none =>
            rw [h2, hp0k] at hlk
            exact Option.noConfusion hlk
          | some w =>
            have h3 : alookup (assignProps ob.props ((nlookup wc obj).getD [])) kv.1
                = some w := alookup_assign_of_some _ hNodup0 hp0k
            rw [hik] at h3
            injection h3 with hw
            rw [h2, hp0k] at hlk
            injection hlk with hkv2
            rw [← hkv2, ← hw, h1]
            rfl
        · rw [h2] at hlk
          injection hlk with hkv2
          rw [← hkv2]
          rfl
      · have h2 := hb kv.1 v hik (by simpa using hvo)
        cases hp0k : alookup ((nlookup wc obj).getD []) kv.1 with
        | none =>
          rw [h2, hp0k] at hlk
          exact Option.noConfusion hlk
        | some w =>
          have h3 : alookup (assignProps ob.props ((nlookup wc obj).getD [])) kv.1
              = some w := alookup_assign_of_some _ hNodup0 hp0k
          rw [hik] at h3
          injection h3 with hw
          rw [h2, hp0k] at hlk
          injection hlk with hkv2
          rw [← hkv2, ← hw]
          exact noproxy_of_not_object hvo
    have hnp2 : ∀ kv ∈ assignProps ob.props patchF, isProxy kv.2 = false := by
      intro kv hkv
      rcases mem_assignProps hkv with h | h
      · exact noproxy_of_valRefOk (((closed_props_facts hH1 hob).2 kv h).2.2)
      · exact hNP kv h
    have hconvP : convFlagged wc obj → alookup patchF convKey = some (Val.bool true) := by
      intro hcv
      have hcv' : truthyOpt (alookup ((nlookup wc obj).getD []) convKey) = true := hcv
      cases hwc : nlookup wc obj with
      | none =>
        rw [hwc] at hcv'
        simp [alookup, truthyOpt] at hcv'
      | some e =>
        rw [hwc] at hcv'
        simp only [Option.getD_some] at hcv'
        cases hq : alookup e convKey with
        | none =>
          rw [hq] at hcv'
          exact Bool.noConfusion hcv'
        | some v =>
          have hv : v = Val.bool true :=
            ((hH2 (obj, e) (nlookup_eq_some_mem hwc)).2.2 (convKey, v)
              (alookup_eq_some_mem hq)).2 rfl
          subst hv
          have hp0c : alookup ((nlookup wc obj).getD []) convKey = some (Val.bool true) := by
            rw [hwc, Option.getD_some]
            exact hq
          have hpc : alookup (assignProps ob.props ((nlookup wc obj).getD [])) convKey
              = some (Val.bool true) := alookup_assign_of_some _ hNodup0 hp0c
          have h2 := hb convKey (Val.bool true) hpc rfl
          rw [h2]
          exact hp0c
    have hconvN : ¬ convFlagged wc obj → alookup patchF convKey = none := by
      intro hcv
      have hp0c : alookup ((nlookup wc obj).getD []) convKey = none := by
        cases hq : alookup ((nlookup wc obj).getD []) convKey with
        | none => rfl
        | some v =>
          exfalso
          apply hcv
          cases hwc : nlookup wc obj with
          | none =>
            rw [hwc] at hq
            simp [alookup] at hq
          | some e =>
            rw [hwc] at hq
            simp only [Option.getD_some] at hq
            have hv : v = Val.bool true :=
              ((hH2 (obj, e) (nlookup_eq_some_mem hwc)).2.2 (convKey, v)
                (alookup_eq_some_mem hq)).2 rfl
            show truthyOpt (alookup ((nlookup wc obj).getD []) convKey) = true
            rw [hwc, Option.getD_some, hq, hv]
            rfl
      have hpc : alookup (assignProps ob.props ((nlookup wc obj).getD [])) convKey = none := by
        rw [alookup_assign_of_none _ hp0c]
        exact closed_no_conv hH1 hob
      have h2 := ha convKey hpc
      rw [h2]
      exact hp0c
    cases patchF with
    | nil =>
      have hcl : Clean heap0 wc obj := hClean rfl
      have hp0 : (nlookup wc obj).getD [] = [] := hp0nil rfl
      have hcv0 : truthyOpt (alookup ob.props convKey) = false := by
        rw [closed_no_conv hH1 hob]
        rfl
      simp only [applyWrites, hsob, hgr, List.isEmpty_nil, if_true, hs1ob, hcv0,
        Bool.false_eq_true, if_false]
      have hm2 : StMono st1 ⟨st1.heap, st1.next, (obj, obj) :: st1.applied⟩ := by
        refine ⟨fun id v h => h, Nat.le_refl _, ?_⟩
        intro m r h
        have hne : ¬ obj = m := by
          intro hh
          subst hh
          rw [hobj1] at h
          exact Option.noConfusion h
        simpa [nlookup, hne] using h
      have hAF : AppliedFact heap0 wc ⟨st1.heap, st1.next, (obj, obj) :: st1.applied⟩
          obj obj := by
        refine ⟨hdom, ⟨fun _ => hcl, fun _ => rfl⟩, fun h => absurd rfl h, ?_⟩
        refine ⟨ob, hs1ob, ?_, ?_⟩
        · intro kv hkv
          exact noproxy_of_valRefOk (((closed_props_facts hH1 hob).2 kv hkv).2.2)
        · intro hcc k v hk
          simp only [patchedOf, hob, hp0, assignProps, List.foldl_nil] at hk
          constructor
          · intro hvo
            have hpk : alookup (assignProps ob.props ((nlookup wc obj).getD [])) k
                = some v := by
              rw [hp0]
              simp only [assignProps, List.foldl_nil]
              exact hk
            obtain ⟨c, rc, hu, hap, hdis⟩ := hc' k v hpk hvo
            refine ⟨c, rc, hu, ?_, ?_⟩
            · have hcne : ¬ obj = c := by
                intro hh
                subst hh
                have hrk := rank_edge hH1 hH2 hRank hob (alookup_eq_some_mem hpk) hu
                exact absurd hrk (Nat.lt_irrefl _)
              simpa [nlookup, hcne] using hap
            · rcases hdis with ⟨h1, h2⟩ | ⟨h1, h2⟩
              · rw [h1] at hk
                exact hk
              · exact absurd h2 (by simp [alookup])
          · intro hvo
            exact hk
      have hInvF : StInv heap0 wc ⟨st1.heap, st1.next, (obj, obj) :: st1.applied⟩ := by
        refine ⟨hInv1.agree, hInv1.bound, ?_⟩
        intro m r hmr
        by_cases hmo : obj = m
        · subst hmo
          have h3 : obj = r := by simpa [nlookup] using hmr
          subst h3
          exact hAF
        · have hmr' : nlookup st1.applied m = some r := by simpa [nlookup, hmo] using hmr
          exact appliedFact_mono (hInv1.good m r hmr') hm2
      refine ⟨hInvF, ?_, ?_, ?_⟩
      · exact ⟨fun id v h => hm2.heap id v (hMono1.heap id v h),
          Nat.le_trans hMono1.next hm2.next,
          fun m r h => hm2.applied m r (hMono1.applied m r h)⟩
      · intro m hm0 hm1
        by_cases hmo : obj = m
        · subst hmo
          exact Nat.le_refl _
        · have hm1' : (nlookup st1.applied m).isSome := by
            have hm1x : (nlookup ((obj, obj) :: st1.applied) m).isSome = true := hm1
            simpa [nlookup, hmo] using hm1x
          exact Nat.le_of_lt (hRankLt m hm0 hm1')
      · intro r hok
        have hok' : Except.ok (ε := Err) obj = Except.ok r := hok
        injection hok' with hr
        subst hr
        show nlookup ((obj, obj) :: st1.applied) obj = some obj
        simp [nlookup]
    | cons hd tl =>
      have hlkhd : alookup (hd :: tl) hd.1 = some hd.2 := by
        obtain ⟨a, b⟩ := hd
        simp [alookup]
      have hncl : ¬ Clean heap0 wc obj := hNotClean hd.1 hd.2 hlkhd
      by_cases hcv : convFlagged wc obj
      · -- sequence-coercion branch: the rebuilt node is converted to an array
        have hct : truthyOpt (alookup (assignProps ob.props (hd :: tl)) convKey) = true := by
          rw [hconvP hcv |> alookup_assign_of_some ob.props hNF]
          rfl
        simp only [applyWrites, hsob, hgr, List.isEmpty_cons, Bool.false_eq_true, if_false,
          alloc, nlookup_cons_self, hct, if_true, nset_cons_self]
        refine ⟨?_, ?_, ?_, ?_⟩
        · refine ⟨?_, ?_, ?_⟩
          · intro id ob2 h
            have hlt : id < st1.next := hInv1.bound id (by rw [hInv1.agree id ob2 h]; rfl)
            have hne1 : ¬ st1.next + 1 = id := by omega
            have hne2 : ¬ st1.next = id := by omega
            simp only [nlookup, hne1, hne2, if_false]
            exact hInv1.agree id ob2 h
          · intro id h
            show id < st1.next + 1 + 1
            by_cases h1 : st1.next + 1 = id
            · omega
            · by_cases h2 : st1.next = id
              · omega
              · have h3 : (nlookup st1.heap id).isSome := by
                  simpa [nlookup, h1, h2] using h
                have := hInv1.bound id h3
                omega
          · intro m r hmr
            by_cases hmo : obj = m
            · subst hmo
              have h3 : st1.next + 1 = r := by simpa [nlookup] using hmr
              subst h3
              refine ⟨hdom, ⟨fun hh => absurd hobjlt (by omega),
                fun hcln => absurd hcln hncl⟩, fun _ => hfresh0', ?_⟩
              refine ⟨_, nlookup_cons_self _ _ _, ?_, fun hcc => absurd hcv hcc⟩
              intro kv hkv
              obtain ⟨i, hi, hkv2⟩ := List.mem_map.mp hkv
              rw [← hkv2]
              cases halk : alookup (adel (assignProps ob.props (hd :: tl)) convKey)
                  (natKey i) with
              | none => rfl
              | some w =>
                simp only [halk, Option.getD_some]
                exact hnp2 (natKey i, w)
                  (mem_adel (alookup_eq_some_mem halk))
            · have hmr' : nlookup st1.applied m = some r := by
                simpa [nlookup, hmo] using hmr
              refine appliedFact_mono (hInv1.good m r hmr') ⟨?_, ?_, ?_⟩
              · intro id v h
                have hlt : id < st1.next := hInv1.bound id (by rw [h]; rfl)
                have hne1 : ¬ st1.next + 1 = id := by omega
                have hne2 : ¬ st1.next = id := by omega
                simp only [nlookup, hne1, hne2, if_false]
                exact h
              · show st1.next ≤ st1.next + 1 + 1
                omega
              · intro m2 r2 h
                by_cases homm : obj = m2
                · subst homm
                  rw [hobj1] at h
                  exact Option.noConfusion h
                · simp only [nlookup, homm, if_false]
                  exact h
        · refine ⟨?_, ?_, ?_⟩
          · intro id v h
            have h1 := hMono1.heap id v h
            have hlt : id < st1.next := hInv1.bound id (by rw [h1]; rfl)
            have hne1 : ¬ st1.next + 1 = id := by omega
            have hne2 : ¬ st1.next = id := by omega
            simp only [nlookup, hne1, hne2, if_false]
            exact h1
          · have := hMono1.next
            show st.next ≤ st1.next + 2
            omega
          · intro m r h
            have h1 := hMono1.applied m r h
            by_cases homm : obj = m
            · subst homm
              rw [hobj1] at h1
              exact Option.noConfusion h1
            · simp only [nlookup, homm, if_false]
              exact h1
        · intro m hm0 hm1
          by_cases hmo : obj = m
          · subst hmo
            exact Nat.le_refl _
          · have hm1x : (nlookup ((obj, st1.next + 1) :: st1.applied) m).isSome = true := hm1
            have hm1' : (nlookup st1.applied m).isSome := by
              simpa [nlookup, hmo] using hm1x
            exact Nat.le_of_lt (hRankLt m hm0 hm1')
        · intro r hok
          have hok' : Except.ok (ε := Err) (st1.next + 1) = Except.ok r := hok
          injection hok' with hr
          subst hr
          rfl
      · -- plain branch: a fresh object node is installed
        have hcf : truthyOpt (alookup (assignProps ob.props (hd :: tl)) convKey) = false := by
          rw [alookup_assign_of_none ob.props (hconvN hcv)]
          rw [closed_no_conv hH1 hob]
          rfl
        simp only [applyWrites, hsob, hgr, List.isEmpty_cons, Bool.false_eq_true, if_false,
          alloc, nlookup_cons_self, hcf]
        have hAF : AppliedFact heap0 wc
            ⟨(st1.next, ⟨false, 0, assignProps ob.props (hd :: tl)⟩) :: st1.heap,
             st1.next + 1, (obj, st1.next) :: st1.applied⟩ obj st1.next := by
          refine ⟨hdom, ⟨fun hh => absurd hobjlt (by omega),
            fun hcln => absurd hcln hncl⟩, fun _ => hfresh0, ?_⟩
          refine ⟨_, nlookup_cons_self _ _ _, hnp2, ?_⟩
          intro hcc k v hk
          simp only [patchedOf, hob] at hk
          constructor
          · intro hvo
            obtain ⟨c, rc, hu, hap, hdis⟩ := hc' k v hk hvo
            refine ⟨c, rc, hu, ?_, ?_⟩
            · have hcne : ¬ obj = c := by
                intro hh
                subst hh
                have hrk := rank_edge hH1 hH2 hRank hob (alookup_eq_some_mem hk) hu
                exact absurd hrk (Nat.lt_irrefl _)
              simpa [nlookup, hcne] using hap
            · show alookup (assignProps ob.props (hd :: tl)) k = some (.ref rc)
              rcases hdis with ⟨h1, h2⟩ | ⟨h1, h2⟩
              · cases hp0k : alookup ((nlookup wc obj).getD []) k with
                | none =>
                  rw [hp0k] at h2
                  rw [alookup_assign_of_none _ h2]
                  rw [← h1]
                  rw [← hk]
                  exact (alookup_assign_of_none _ hp0k).symm
                | some w =>
                  have h3 : alookup (assignProps ob.props ((nlookup wc obj).getD [])) k
                      = some w := alookup_assign_of_some _ hNodup0 hp0k
                  rw [hk] at h3
                  injection h3 with hw
                  rw [hp0k] at h2
                  rw [← hw, h1] at h2
                  exact alookup_assign_of_some _ hNF h2
              · exact alookup_assign_of_some _ hNF h2
          · intro hvo
            show alookup (assignProps ob.props (hd :: tl)) k = some v
            have h2 := hb k v hk hvo
            cases hp0k : alookup ((nlookup wc obj).getD []) k with
            | none =>
              rw [hp0k] at h2
              rw [alookup_assign_of_none _ h2]
              rw [← hk]
              exact (alookup_assign_of_none _ hp0k).symm
            | some w =>
              have h3 : alookup (assignProps ob.props ((nlookup wc obj).getD [])) k
                  = some w := alookup_assign_of_some _ hNodup0 hp0k
              rw [hk] at h3
              injection h3 with hw
              rw [hp0k] at h2
              rw [← hw] at h2
              exact alookup_assign_of_some _ hNF h2
        refine ⟨?_, ?_, ?_, ?_⟩
        · refine ⟨?_, ?_, ?_⟩
          · intro id ob2 h
            have hlt : id < st1.next := hInv1.bound id (by rw [hInv1.agree id ob2 h]; rfl)
            have hne2 : ¬ st1.next = id := by omega
            simp only [nlookup, hne2, if_false]
            exact hInv1.agree id ob2 h
          · intro id h
            show id < st1.next + 1
            by_cases h2 : st1.next = id
            · omega
            · have h3 : (nlookup st1.heap id).isSome := by
                simpa [nlookup, h2] using h
              have := hInv1.bound id h3
              omega
          · intro m r hmr
            by_cases hmo : obj = m
            · subst hmo
              have h3 : st1.next = r := by simpa [nlookup] using hmr
              subst h3
              exact hAF
            · have hmr' : nlookup st1.applied m = some r := by
                simpa [nlookup, hmo] using hmr
              refine appliedFact_mono (hInv1.good m r hmr') ⟨?_, ?_, ?_⟩
              · intro id v h
                have hlt : id < st1.next := hInv1.bound id (by rw [h]; rfl)
                have hne2 : ¬ st1.next = id := by omega
                simp only [nlookup, hne2, if_false]
                exact h
              · show st1.next ≤ st1.next + 1
                omega
              · intro m2 r2 h
                by_cases homm : obj = m2
                · subst homm
                  rw [hobj1] at h
                  exact Option.noConfusion h
                · simp only [nlookup, homm, if_false]
                  exact h
        · refine ⟨?_, ?_, ?_⟩
          · intro id v h
            have h1 := hMono1.heap id v h
            have hlt : id < st1.next := hInv1.bound id (by rw [h1]; rfl)
            have hne2 : ¬ st1.next = id := by omega
            simp only [nlookup, hne2, if_false]
            exact h1
          · have := hMono1.next
            show st.next ≤ st1.next + 1
            omega
          · intro m r h
            have h1 := hMono1.applied m r h
            by_cases homm : obj = m
            · subst homm
              rw [hobj1] at h1
              exact Option.noConfusion h1
            · simp only [nlookup, homm, if_false]
              exact h1
        · intro m hm0 hm1
          by_cases hmo : obj = m
          · subst hmo
            exact Nat.le_refl _
          · have hm1x : (nlookup ((obj, st1.next) :: st1.applied) m).isSome = true := hm1
            have hm1' : (nlookup st1.applied m).isSome := by
              simpa [nlookup, hmo] using hm1x
            exact Nat.le_of_lt (hRankLt m hm0 hm1')
        · intro r hok
          have hok' : Except.ok (ε := Err) st1.next = Except.ok r := hok
          injection hok' with hr
          subst hr
          rfl

theorem nlookup_isSome_bound {α : Type} (l : List (Nat × α)) (b : Nat)
    (hb : ∀ e ∈ l, e.1 < b) : ∀ id, (nlookup l id).isSome → id < b := by
  intro id h
  cases hh : nlookup l id with
  | none =>
    rw [hh] at h
    exact Bool.noConfusion h
  | some v => exact hb (id, v) (nlookup_eq_some_mem hh)

theorem goProps_all_scalar (recf : Nat → St → Except Err Nat × St) :
    ∀ (items : Props) (patch : Props) (st : St),
      (∀ kv ∈ items, typeofObject kv.2 = false) →
      goProps recf items patch st = (.ok patch, st) := by
  intro items
  induction items with
  | nil =>
    intro patch st h
    rfl
  | cons kv rest ih =>
    intro patch st h
    obtain ⟨k, v⟩ := kv
    have hv : typeofObject v = false := h (k, v) (List.mem_cons_self _ _)
    simp only [goProps, hv, Bool.false_eq_true, if_false]
    exact ih patch st (fun kv hkv => h kv (List.mem_cons_of_mem _ hkv))

theorem alookup_append {α : Type} (l1 l2 : List (String × α)) (k : String) :
    alookup (l1 ++ l2) k =
      match alookup l1 k with
      | some v => some v
      | none => alookup l2 k := by
  induction l1 with
  | nil => simp [alookup]
  | cons kv rest ih =>
    obtain ⟨k0, v0⟩ := kv
    by_cases h : k0 = k
    · simp [alookup, h]
    · simp [alookup, h, ih]

theorem alookup_natKeyMap (f : Nat → Val) :
    ∀ (n q : Nat), alookup ((List.range n).map (fun j => (natKey j, f j))) (natKey q)
      = if q < n then some (f q) else none := by
  intro n
  induction n with
  | zero =>
    intro q
    simp [alookup]
  | succ n ihn =>
    intro q
    rw [List.range_succ, List.map_append, alookup_append, ihn q]
    by_cases h : q < n
    · simp [h, Nat.lt_succ_of_lt h]
    · by_cases h2 : q = n
      · subst h2
        simp [h, alookup, Nat.lt_succ_self]
      · have hne : ¬ natKey n = natKey q := fun hh => h2 ((natKey_inj hh).symm)
        have h3 : ¬ q < n + 1 := by omega
        simp [h, h3, alookup, hne]

/-!
Claims settled at the trap level: C5, C7, C8, C10, and the counterexample of
C4 with its amended form.
-/

/-- C5 fails on the code: assigning a view through a Staging View records the
view itself in the Write Cache, not its underlying Node — the unwrap happens
during the merge, not before storage.  Concretely, `v.nine = view(3)` stores
`proxyRef 3` and not `ref 3`. -/
theorem c5_counterexample :
    (proxySet [] heapSimple 0 "nine" (.proxyRef 3)).1 = .ok () ∧
    alookup ((nlookup (proxySet [] heapSimple 0 "nine" (.proxyRef 3)).2 0).getD []) "nine"
      = some (.proxyRef 3) ∧
    (Val.proxyRef 3 : Val) ≠ .ref 3 := by
  decide

/-- C5 (amended): the `set` trap records the assigned value verbatim in the
Write Cache entry for `(target, property)` — a Staging View is stored as the
view; unwrapping to the underlying Node happens later, during the merge. -/
theorem c5_amended (wc : WC) (heap : HeapL) (t : Nat) (p : String) (v : Val) (ob : Obj)
    (hob : nlookup heap t = some ob)
    (hfn : typeofFunction (targetProp ob p) = false)
    (hprot : p ∉ protectedNames)
    (harr : ob.isArr = false) :
    (proxySet wc heap t p v).1 = .ok () ∧
    alookup ((nlookup (proxySet wc heap t p v).2 t).getD []) p = some v := by
  simp only [proxySet, hob]
  rw [if_neg (by simp [hfn]), if_neg hprot, harr]
  simp only [Bool.false_eq_true, if_false]
  refine ⟨by trivial, ?_⟩
  simp only [nlookup_nset_self, Option.getD_some]
  exact alookup_aset_self _ p v

/-- C5 amended, witnessed: `v.c = view(3)` stores the view itself. -/
theorem c5_amended_witness :
    (proxySet [] heapSimple 0 "c" (.proxyRef 3)).1 = .ok () ∧
    alookup ((nlookup (proxySet [] heapSimple 0 "c" (.proxyRef 3)).2 0).getD []) "c"
      = some (.proxyRef 3) :=
  c5_amended [] heapSimple 0 "c" (.proxyRef 3)
    ⟨false, 0, [("one", .ref 1), ("two", .ref 2), ("seven", .str "s")]⟩
    (by decide) (by decide) (by decide) (by decide)

/-- C7 fails on the code: the key `"-1"` is neither the length field nor a
non-negative integer index, yet writing it on a sequence raises no error at
all, because `parseInt` accepts a sign. -/
theorem c7_counterexample :
    (proxySet [] heapArr 1 "-1" (.num 7)).1 = .ok () ∧
    "-1" ≠ "length" ∧ parseIntJS "-1" = some (-1) := by
  decide

/-- C7 (amended): a write of key `k` on a Sequence-tagged node raises
ArrayInvariantError iff `k` does not name an inherited method, is not a
protected name, is not the length field, and does not even parseInt-parse
(sign and trailing garbage allowed) to an integer; and when `k` parses to
`i` with `i + 1` exceeding the effective length (pending length if set, else
original length), the pending length is set to `i + 1`. -/
theorem c7_amended (wc : WC) (heap : HeapL) (t : Nat) (p : String) (v : Val) (ob : Obj)
    (hob : nlookup heap t = some ob) (harr : ob.isArr = true) :
    ((proxySet wc heap t p v).1 = .error .arrayInvariant ↔
      (typeofFunction (targetProp ob p) = false ∧ p ∉ protectedNames ∧
       parseIntJS p = none ∧ p ≠ "length")) ∧
    (∀ i : Int, typeofFunction (targetProp ob p) = false → p ∉ protectedNames →
      parseIntJS p = some i →
      jsLt ((alookup ((nlookup wc t).getD []) "length").getD (.num ob.len)) (.num (i + 1)) = true →
      alookup ((nlookup (proxySet wc heap t p v).2 t).getD []) "length"
        = some (.num (i + 1))) := by
  have hconv : convKey ≠ "length" := by decide
  constructor
  · simp only [proxySet, hob]
    by_cases hfn : typeofFunction (targetProp ob p) = true
    · rw [if_pos hfn]
      constructor
      · intro hcon
        simp at hcon
      · rintro ⟨hfn', -⟩
        rw [hfn] at hfn'
        exact absurd hfn' (by simp)
    · have hfn0 : typeofFunction (targetProp ob p) = false := Bool.eq_false_iff.mpr hfn
      rw [if_neg hfn]
      by_cases hprot : p ∈ protectedNames
      · rw [if_pos hprot]
        constructor
        · intro hcon
          simp at hcon
        · rintro ⟨-, hprot', -⟩
          exact absurd hprot hprot'
      · rw [if_neg hprot, harr]
        simp only [if_true]
        unfold maintainArrayInvariant
        simp only [nlookup_nset_self, Option.getD_some]
        constructor
        · intro hcon
          split at hcon
          · split at hcon <;> simp at hcon
          · rename_i heq
            by_cases hlen : p = "length"
            · rw [if_pos hlen] at hcon
              split at hcon
              · split at hcon <;> simp at hcon
              · simp at hcon
            · exact ⟨hfn0, hprot, heq, hlen⟩
        · rintro ⟨-, -, hnone, hlen⟩
          simp only [hnone]
          rw [if_neg hlen]
  · intro i hfn hprot hpi hjl
    simp only [proxySet, hob]
    rw [if_neg (by simp [hfn]), if_neg hprot, harr]
    simp only [if_true]
    unfold maintainArrayInvariant
    simp only [nlookup_nset_self, Option.getD_some, hpi]
    have hplen : p ≠ "length" := by
      intro hc
      rw [hc] at hpi
      exact Option.noConfusion ((by decide : parseIntJS "length" = none) ▸ hpi)
    have hlen1 : ("length" : String) ≠ convKey := fun hc => hconv hc.symm
    have hlen2 : ("length" : String) ≠ p := fun hc => hplen hc.symm
    have hl1 : alookup (aset (aset ((nlookup wc t).getD []) p v) convKey (.bool true))
        "length" = alookup ((nlookup wc t).getD []) "length" := by
      rw [alookup_aset_ne _ (Val.bool true) hlen1, alookup_aset_ne _ v hlen2]
    rw [hl1, hjl]
    simp only [if_true, nlookup_nset_self, Option.getD_some]
    exact alookup_aset_self _ "length" (Val.num (i + 1))

/-- C7 amended, witnessed: `"foo"` errors on the fixture array while index 5
grows the pending length to 6. -/
theorem c7_amended_witness :
    (proxySet [] heapArr 1 "foo" (.num 7)).1 = Except.error Err.arrayInvariant ∧
    alookup ((nlookup (proxySet [] heapArr 1 "5" (.str "x")).2 1).getD []) "length"
      = some (.num 6) := by
  constructor
  · exact (c7_amended [] heapArr 1 "foo" (.num 7)
      ⟨true, 3, [("0", .str "a"), ("1", .str "b"), ("2", .str "c")]⟩
      (by decide) (by decide)).1.mpr (by decide)
  · exact (c7_amended [] heapArr 1 "5" (.str "x")
      ⟨true, 3, [("0", .str "a"), ("1", .str "b"), ("2", .str "c")]⟩
      (by decide) (by decide)).2 5 (by decide) (by decide) (by decide) (by decide)

/-- C8: the shrink logic is dead code.  The `set` trap stores the pending
`length` into the cache before `maintainArrayInvariant` reads the effective
length, so the deletion loop `[newLength, oldEffectiveLength)` never runs:
after `arr[2] = "x"; arr.length = 1` the pending entry for index 2 is still
in the cache and a read through the view still returns it, contradicting
both the claim and the source's own comment. -/
theorem c8_shrink_dead_code :
    proxySet [] heapArr 1 "2" (.str "x")
      = (.ok (), [(1, [("2", .str "x"), (convKey, .bool true)])]) ∧
    proxySet [(1, [("2", .str "x"), (convKey, .bool true)])] heapArr 1 "length" (.num 1)
      = (.ok (), [(1, [("2", .str "x"), (convKey, .bool true), ("length", .num 1)])]) ∧
    alookup [("2", Val.str "x"), (convKey, .bool true), ("length", .num 1)] "2"
      = some (.str "x") ∧
    proxyGet [(1, [("2", .str "x"), (convKey, .bool true), ("length", .num 1)])] heapArr 1 "2"
      = .ok (.str "x") := by
  decide

/-- C10: reading a property whose underlying value is `null` (with no
pending write) through a Staging View throws: `typeof null === "object"`
sends it to the composite branch, and building a proxy over `null` raises a
TypeError. -/
theorem c10_null_read_throws (wc : WC) (heap : HeapL) (t : Nat) (p : String) (ob : Obj)
    (hob : nlookup heap t = some ob)
    (hp1 : p ≠ cacheKey) (hp2 : p ≠ wrappedKey)
    (hpend : alookup ((nlookup wc t).getD []) p = none)
    (hproto : p ∉ objectMethodNames)
    (hnull : alookup ob.props p = some .null)
    (hlen : ¬ (ob.isArr = true ∧ p = "length")) :
    proxyGet wc heap t p = .error .proxyNonObject := by
  unfold proxyGet
  rw [if_neg hp1, if_neg hp2, hob]
  simp only [hpend, Option.isSome_none, Bool.false_eq_true, false_or, hproto, if_false]
  unfold targetProp
  rw [if_neg hlen, hnull]

/-- C10 witnessed on `{z: null}`. -/
theorem c10_null_read_throws_witness :
    proxyGet [] heapNull 0 "z" = .error .proxyNonObject :=
  c10_null_read_throws [] heapNull 0 "z" ⟨false, 0, [("z", .null)]⟩
    (by decide) (by decide) (by decide) (by decide) (by decide) (by decide) (by decide)

/-- C4 fails on the code as stated over all graphs: when an original node
uses the reserved key `_immutableStagingConvertArray` as data, the merge
executes `delete retObj._immutableStagingConvertArray` on the original node
itself, mutating the input graph even for a no-write update. -/
theorem c4_counterexample :
    (runMerge [] 3 0 heapConv 1).1 = .ok 1 ∧
    nlookup heapConv 0 = some ⟨false, 0, [(convKey, .bool true), ("x", .num 1)]⟩ ∧
    nlookup (runMerge [] 3 0 heapConv 1).2.heap 0 = some ⟨false, 0, [("x", .num 1)]⟩ ∧
    (some (⟨false, 0, [("x", .num 1)]⟩ : Obj)
      ≠ some (⟨false, 0, [(convKey, .bool true), ("x", .num 1)]⟩ : Obj)) := by
  decide

/-- C4 (amended): for every original graph whose nodes do not carry a truthy
`_immutableStagingConvertArray` key as data, every merge execution — whether
it completes or aborts with any error at any point — leaves every original
node exactly as it was.  (The staging traps only write to the write cache,
never to the heap, so the merge is the only phase that could mutate.) -/
theorem c4_amended (wc : WC) (fuel : Nat) (root : Nat) (heap0 : HeapL) (next0 : Nat)
    (hconv : ConvFalsy heap0) (hb : ∀ e ∈ heap0, e.1 < next0) :
    ∀ id v, nlookup heap0 id = some v →
      nlookup (runMerge wc fuel root heap0 next0).2.heap id = some v := by
  intro id v hv
  have hb' : ∀ id, (nlookup heap0 id).isSome = true → id < next0 := by
    intro id hid
    cases h : nlookup heap0 id with
    | none => rw [h] at hid; exact Bool.noConfusion hid
    | some w => exact hb (id, w) (nlookup_eq_some_mem h)
  exact (applyWrites_heap_preserve wc fuel root
    { heap := heap0, next := next0, applied := [] } hconv hb').2.2.2 id v hv

/-- C4 amended, witnessed on an aborted run: the mutator wrote `null` into a
property, which makes the merge throw a TypeError mid-way, and the original
nodes are still intact afterwards. -/
theorem c4_amended_witness :
    (runMerge [(0, [("x", Val.null)])] 5 0 heapSimple 4).1 = .error .typeError ∧
    nlookup (runMerge [(0, [("x", Val.null)])] 5 0 heapSimple 4).2.heap 0
      = some ⟨false, 0, [("one", .ref 1), ("two", .ref 2), ("seven", .str "s")]⟩ := by
  constructor
  · decide
  · exact c4_amended [(0, [("x", Val.null)])] 5 0 heapSimple 4 (by decide) (by decide) 0
      ⟨false, 0, [("one", .ref 1), ("two", .ref 2), ("seven", .str "s")]⟩ (by decide)

/-- C1: on every successful merge over a wellformed acyclic graph, the
returned root id equals the original root id iff no node reachable from the
root carries a pending write; in particular, an empty write cache returns
the original root itself. -/
theorem c1_root_identity_iff_clean (heap0 : HeapL) (wc : WC) (rank : Nat → Nat)
    (fuel next0 root r : Nat) (st' : St)
    (hH1 : ClosedWF heap0) (hH2 : WCWF heap0 wc) (hRank : RankWF heap0 wc rank)
    (hbound : ∀ id, (nlookup heap0 id).isSome → id < next0)
    (hroot : (nlookup heap0 root).isSome)
    (hrun : runMerge wc fuel root heap0 next0 = (.ok r, st')) :
    (r = root ↔ ∀ m, Reach heap0 root m → entryEmpty wc m) ∧
    (wc = [] → r = root) := by
  have hInv0 : StInv heap0 wc ⟨heap0, next0, []⟩ :=
    ⟨fun id ob h => h, hbound, fun m r h => Option.noConfusion h⟩
  have hM := applyWrites_master heap0 wc rank hH1 hH2 hRank fuel root
    ⟨heap0, next0, []⟩ hInv0 rfl hroot
  have hrun' : applyWrites wc fuel root ⟨heap0, next0, []⟩ = (.ok r, st') := hrun
  rw [hrun'] at hM
  have hInv' : StInv heap0 wc st' := hM.1
  have hok : nlookup st'.applied root = some r := hM.2.2.2 r rfl
  have hiff := (hInv'.good root r hok).idIff
  refine ⟨hiff, ?_⟩
  intro hwc
  subst hwc
  exact hiff.mpr (fun q hq e he => Option.noConfusion he)

/-- C1 witnessed: a no-write merge over the test-suite fixture returns the
original root id 0. -/
theorem c1_root_identity_iff_clean_witness :
    ((0 : Nat) = 0 ↔ ∀ m, Reach heapSimple 0 m → entryEmpty [] m) ∧
    (([] : WC) = [] → (0 : Nat) = 0) :=
  c1_root_identity_iff_clean heapSimple [] (fun n => 4 - n) 5 4 0 0
    (runMerge [] 5 0 heapSimple 4).2 (by decide) (by decide) (by decide)
    (nlookup_isSome_bound heapSimple 4 (by decide)) (by decide) rfl

/-- C2: for a single scalar write recorded at node `n`, every node the merge
rebuilds keeps its original identity iff `n` is not reachable from it — the
written node and its (transitive) referrers change identity, all other
processed nodes come back as themselves. -/
theorem c2_single_scalar_write_frame (heap0 : HeapL) (rank : Nat → Nat)
    (n : Nat) (k : String) (sv : Val) (fuel next0 root r : Nat) (st' : St)
    (hsv : typeofObject sv = false)
    (hH1 : ClosedWF heap0) (hH2 : WCWF heap0 [(n, [(k, sv)])])
    (hRank : RankWF heap0 [(n, [(k, sv)])] rank)
    (hbound : ∀ id, (nlookup heap0 id).isSome → id < next0)
    (hroot : (nlookup heap0 root).isSome)
    (hrun : runMerge [(n, [(k, sv)])] fuel root heap0 next0 = (.ok r, st')) :
    nlookup st'.applied root = some r ∧
    ∀ m r', nlookup st'.applied m = some r' → (r' = m ↔ ¬ Reach heap0 m n) := by
  have hInv0 : StInv heap0 [(n, [(k, sv)])] ⟨heap0, next0, []⟩ :=
    ⟨fun id ob h => h, hbound, fun m r h => Option.noConfusion h⟩
  have hM := applyWrites_master heap0 [(n, [(k, sv)])] rank hH1 hH2 hRank fuel root
    ⟨heap0, next0, []⟩ hInv0 rfl hroot
  have hrun' : applyWrites [(n, [(k, sv)])] fuel root ⟨heap0, next0, []⟩ = (.ok r, st') := hrun
  rw [hrun'] at hM
  have hInv' : StInv heap0 [(n, [(k, sv)])] st' := hM.1
  have hok : nlookup st'.applied root = some r := hM.2.2.2 r rfl
  have hCl : ∀ m, Clean heap0 [(n, [(k, sv)])] m ↔ ¬ Reach heap0 m n := by
    intro m
    constructor
    · intro hcl hre
      have he := hcl n hre [(k, sv)] (by simp [nlookup])
      exact List.noConfusion he
    · intro hnr q hq e he
      have hqn : ¬ n = q := by
        intro hh
        subst hh
        exact hnr hq
      rw [show nlookup [(n, [(k, sv)])] q = none by simp [nlookup, hqn]] at he
      exact Option.noConfusion he
  refine ⟨hok, ?_⟩
  intro m r' hmr
  exact ((hInv'.good m r' hmr).idIff).trans (hCl m)

/-- C2 witnessed on the DAG fixture: the scalar write at node 3 changes the
identities of 3 and of its referrers 1, 2, 0, while the unrelated sibling 4
keeps identity. -/
theorem c2_single_scalar_write_frame_witness :
    nlookup (runMerge [(3, [("x", Val.num 5)])] 8 0 heapDag 5).2.applied 0 = some 8 ∧
    ∀ m r', nlookup (runMerge [(3, [("x", Val.num 5)])] 8 0 heapDag 5).2.applied m
        = some r' → (r' = m ↔ ¬ Reach heapDag m 3) :=
  c2_single_scalar_write_frame heapDag (fun n => 5 - n) 3 "x" (.num 5) 8 5 0 8
    (runMerge [(3, [("x", Val.num 5)])] 8 0 heapDag 5).2 (by decide) (by decide)
    (by decide) (by decide) (nlookup_isSome_bound heapDag 5 (by decide)) (by decide) rfl

/-- C6: no object the merge installs in its memo contains a staging proxy,
and the escape hatch resolves to sharing: when the root's patched table
reaches node `a` once as a plain reference and once as a staging view (the
cached value of `v.c = v.a`), the rebuilt root holds the same single node id
under both keys. -/
theorem c6_no_views_in_output (heap0 : HeapL) (wc : WC) (rank : Nat → Nat)
    (fuel next0 root r a : Nat) (st' : St) (ka kc : String)
    (hH1 : ClosedWF heap0) (hH2 : WCWF heap0 wc) (hRank : RankWF heap0 wc rank)
    (hbound : ∀ id, (nlookup heap0 id).isSome → id < next0)
    (hroot : (nlookup heap0 root).isSome)
    (hrun : runMerge wc fuel root heap0 next0 = (.ok r, st'))
    (ha : (nlookup heap0 a).isSome)
    (hcv : ¬ convFlagged wc root)
    (hpa : alookup (patchedOf heap0 wc root) ka = some (.ref a))
    (hpc : alookup (patchedOf heap0 wc root) kc = some (.proxyRef a)) :
    (∀ m r', nlookup st'.applied m = some r' →
      ∀ rob, nlookup st'.heap r' = some rob → ∀ kv ∈ rob.props, isProxy kv.2 = false) ∧
    (∃ rob ra, nlookup st'.heap r = some rob ∧ nlookup st'.applied a = some ra ∧
      alookup rob.props ka = some (.ref ra) ∧ alookup rob.props kc = some (.ref ra)) := by
  have hInv0 : StInv heap0 wc ⟨heap0, next0, []⟩ :=
    ⟨fun id ob h => h, hbound, fun m r h => Option.noConfusion h⟩
  have hM := applyWrites_master heap0 wc rank hH1 hH2 hRank fuel root
    ⟨heap0, next0, []⟩ hInv0 rfl hroot
  have hrun' : applyWrites wc fuel root ⟨heap0, next0, []⟩ = (.ok r, st') := hrun
  rw [hrun'] at hM
  have hInv' : StInv heap0 wc st' := hM.1
  have hok : nlookup st'.applied root = some r := hM.2.2.2 r rfl
  constructor
  · intro m r' hmr rob hrob kv hkv
    obtain ⟨rob0, hrob0, hnp0, hpf0⟩ := (hInv'.good m r' hmr).resObj
    rw [hrob0] at hrob
    injection hrob with hr0
    subst hr0
    exact hnp0 kv hkv
  · cases hsa : nlookup heap0 a with
    | none =>
      rw [hsa] at ha
      exact Bool.noConfusion ha
    | some aob =>
    obtain ⟨rob, hrob, hnp, hpf⟩ := (hInv'.good root r hok).resObj
    obtain ⟨c1, rc1, hu1, hac1, hkk1⟩ := (hpf hcv ka (.ref a) hpa).1 rfl
    obtain ⟨c2, rc2, hu2, hac2, hkk2⟩ := (hpf hcv kc (.proxyRef a) hpc).1 rfl
    rw [unwrap_ref hH1 hsa] at hu1
    injection hu1 with hc1
    subst hc1
    have hu2' : Except.ok (ε := Err) a = .ok c2 := hu2
    injection hu2' with hc2
    subst hc2
    rw [hac1] at hac2
    injection hac2 with hrc
    subst hrc
    exact ⟨rob, rc1, hrob, hac1, hkk1, hkk2⟩

/-- C6 witnessed: `v.c = v.two` on the simple fixture stores the view of
node 2 in the cache; the rebuilt root 4 holds `ref 2` under both `"two"`
and `"c"`, and no memoized object contains a proxy. -/
theorem c6_no_views_in_output_witness :
    (∀ m r', nlookup (runMerge [(0, [("c", Val.proxyRef 2)])] 5 0 heapSimple 4).2.applied m
        = some r' →
      ∀ rob, nlookup (runMerge [(0, [("c", Val.proxyRef 2)])] 5 0 heapSimple 4).2.heap r'
        = some rob → ∀ kv ∈ rob.props, isProxy kv.2 = false) ∧
    (∃ rob ra, nlookup (runMerge [(0, [("c", Val.proxyRef 2)])] 5 0 heapSimple 4).2.heap 4
        = some rob ∧
      nlookup (runMerge [(0, [("c", Val.proxyRef 2)])] 5 0 heapSimple 4).2.applied 2
        = some ra ∧
      alookup rob.props "two" = some (.ref ra) ∧ alookup rob.props "c" = some (.ref ra)) :=
  c6_no_views_in_output heapSimple [(0, [("c", Val.proxyRef 2)])] (fun n => 4 - n)
    5 4 0 4 2 (runMerge [(0, [("c", Val.proxyRef 2)])] 5 0 heapSimple 4).2 "two" "c"
    (by decide) (by decide) (by decide)
    (nlookup_isSome_bound heapSimple 4 (by decide)) (by decide) rfl (by decide)
    (by decide) (by decide) (by decide)

/-- C9: writing index `i` with `length ≤ i` on a sequence node through a
Staging View succeeds and sets the pending length to `i + 1`; the merge then
materializes the node as a sequence (`isArr`, not a plain mapping) of length
exactly `i + 1` whose index `i` holds the written value, whose indices below
the old length hold the original entries, and whose indices in
`[length, i)` hold the hole value `undefined`. -/
theorem c9_sequence_growth (heap0 : HeapL) (a i next0 fuel : Nat) (v : Val) (ob : Obj)
    (hob : nlookup heap0 a = some ob) (harr : ob.isArr = true)
    (hidx : ∀ kv ∈ ob.props, kv.1 ∈ (List.range ob.len).map natKey)
    (hscal : ∀ kv ∈ ob.props, typeofObject kv.2 = false)
    (hv : typeofObject v = false)
    (hil : ob.len ≤ i) :
    ∃ st',
      proxySet [] heap0 a (natKey i) v
        = (.ok (), [(a, [(natKey i, v), (convKey, .bool true),
                         ("length", .num ((i : Int) + 1))])]) ∧
      runMerge [(a, [(natKey i, v), (convKey, .bool true),
                     ("length", .num ((i : Int) + 1))])] (fuel + 1) a heap0 next0
        = (.ok (next0 + 1), st') ∧
      ∃ arr, nlookup st'.heap (next0 + 1) = some arr ∧ arr.isArr = true ∧
        arr.len = i + 1 ∧
        alookup arr.props (natKey i) = some v ∧
        (∀ j, ob.len ≤ j → j < i → alookup arr.props (natKey j) = some .undef) ∧
        (∀ j, j < ob.len → alookup arr.props (natKey j)
          = some ((alookup ob.props (natKey j)).getD .undef)) := by
  have hklen : natKey i ≠ "length" := natKey_ne_of_none (by decide) i
  have hkconv : natKey i ≠ convKey := natKey_ne_of_none (by decide) i
  have hkcache : natKey i ≠ cacheKey := natKey_ne_of_none (by decide) i
  have hkwrap : natKey i ≠ wrappedKey := natKey_ne_of_none (by decide) i
  have hallArr : ∀ s ∈ arrayMethodNames, parseIntJS s = none := by decide
  have hallObj : ∀ s ∈ objectMethodNames, parseIntJS s = none := by decide
  have hkarr : natKey i ∉ arrayMethodNames := fun hm => natKey_ne_of_none (hallArr _ hm) i rfl
  have hkobj : natKey i ∉ objectMethodNames := fun hm => natKey_ne_of_none (hallObj _ hm) i rfl
  have hnotin : ∀ q, ob.len ≤ q → alookup ob.props (natKey q) = none := by
    intro q hq
    cases hh : alookup ob.props (natKey q) with
    | none => rfl
    | some w =>
      exfalso
      have hmem := hidx (natKey q, w) (alookup_eq_some_mem hh)
      obtain ⟨j, hj, hjq⟩ := List.mem_map.mp hmem
      have hjr := List.mem_range.mp hj
      have hji := natKey_inj hjq
      omega
  have htp : targetProp ob (natKey i) = .undef := by
    have h1 : ¬ (ob.isArr = true ∧ natKey i = "length") := fun hh => hklen hh.2
    have h2 : ¬ ((ob.isArr = true ∧ natKey i ∈ arrayMethodNames) ∨
        natKey i ∈ objectMethodNames) := by
      rintro (⟨-, hm⟩ | hm)
      · exact hkarr hm
      · exact hkobj hm
    simp only [targetProp, hnotin i hil, if_neg h1, if_neg h2]
  have hfn : typeofFunction (targetProp ob (natKey i)) = false := by
    rw [htp]
    rfl
  have hkprot : natKey i ∉ protectedNames := by
    intro hm
    simp only [protectedNames, List.mem_cons, List.not_mem_nil, or_false] at hm
    rcases hm with hm | hm | hm
    · exact hkcache hm
    · exact hkwrap hm
    · exact hkconv hm
  have hlt : jsLt (.num ob.len) (.num ((i : Int) + 1)) = true := by
    simp only [jsLt, toNumberJS, decide_eq_true_eq]
    omega
  have hmai : maintainArrayInvariant [(a, [(natKey i, v)])] ob a (natKey i) v
      = (.ok (), [(a, [(natKey i, v), (convKey, .bool true),
                   ("length", .num ((i : Int) + 1))])]) := by
    have hparse : parseIntJS (natKey i) = some ((i : Int)) := by
      rw [parseIntJS_natKey i]
      rfl
    unfold maintainArrayInvariant
    rw [hparse]
    simp only [nlookup_cons_self, Option.getD_some, Option.getD_none, aset, alookup,
      eq_self_iff_true, if_true, eq_false hkconv, eq_false hklen,
      eq_false (show convKey ≠ "length" by decide), if_false, Bool.false_eq_true,
      hlt, nset, nset_cons_self]
  have hstep1 : proxySet [] heap0 a (natKey i) v
      = (.ok (), [(a, [(natKey i, v), (convKey, .bool true),
                       ("length", .num ((i : Int) + 1))])]) := by
    simp only [proxySet, hob, hfn, Bool.false_eq_true, if_false, if_neg hkprot, harr,
      if_true, nlookup, Option.getD_none, aset, nset]
    exact hmai
  have hNodupE : (keysOf [(natKey i, v), (convKey, Val.bool true),
      ("length", Val.num ((i : Int) + 1))]).Nodup := by
    simp [keysOf, hkconv, hklen, show convKey ≠ "length" by decide]
  have hallscal : ∀ kv ∈ assignProps ob.props
      [(natKey i, v), (convKey, Val.bool true), ("length", Val.num ((i : Int) + 1))],
      typeofObject kv.2 = false := by
    intro kv hkv
    rcases mem_assignProps hkv with h | h
    · exact hscal kv h
    · simp only [List.mem_cons, List.not_mem_nil, or_false] at h
      rcases h with h | h | h
      · subst h
        exact hv
      · subst h
        rfl
      · subst h
        rfl
  have halE_conv : alookup [(natKey i, v), (convKey, Val.bool true),
      ("length", Val.num ((i : Int) + 1))] convKey = some (.bool true) := by
    simp [alookup, hkconv]
  have halE_len : alookup [(natKey i, v), (convKey, Val.bool true),
      ("length", Val.num ((i : Int) + 1))] "length" = some (.num ((i : Int) + 1)) := by
    simp [alookup, hklen, show convKey ≠ "length" by decide]
  have halE_i : alookup [(natKey i, v), (convKey, Val.bool true),
      ("length", Val.num ((i : Int) + 1))] (natKey i) = some v := by
    simp [alookup]
  have halE_other : ∀ q, q ≠ i → alookup [(natKey i, v), (convKey, Val.bool true),
      ("length", Val.num ((i : Int) + 1))] (natKey q) = none := by
    intro q hq
    have h1 : ¬ natKey i = natKey q := fun hh => hq (natKey_inj hh).symm
    have h2 : ¬ convKey = natKey q := fun hh => (natKey_ne_of_none (by decide) q) hh.symm
    have h3 : ¬ ("length" : String) = natKey q :=
      fun hh => (natKey_ne_of_none (by decide) q) hh.symm
    simp [alookup, h1, h2, h3]
  have hP_conv : alookup (assignProps ob.props [(natKey i, v), (convKey, Val.bool true),
      ("length", Val.num ((i : Int) + 1))]) convKey = some (.bool true) :=
    alookup_assign_of_some _ hNodupE halE_conv
  have hR_len : alookup (adel (assignProps ob.props [(natKey i, v),
      (convKey, Val.bool true), ("length", Val.num ((i : Int) + 1))]) convKey) "length"
      = some (.num ((i : Int) + 1)) := by
    rw [alookup_adel_ne _ (show ("length" : String) ≠ convKey by decide)]
    exact alookup_assign_of_some _ hNodupE halE_len
  have hR_i : alookup (adel (assignProps ob.props [(natKey i, v),
      (convKey, Val.bool true), ("length", Val.num ((i : Int) + 1))]) convKey) (natKey i)
      = some v := by
    rw [alookup_adel_ne _ hkconv]
    exact alookup_assign_of_some _ hNodupE halE_i
  have hR_hole : ∀ j, ob.len ≤ j → j < i →
      alookup (adel (assignProps ob.props [(natKey i, v), (convKey, Val.bool true),
        ("length", Val.num ((i : Int) + 1))]) convKey) (natKey j) = none := by
    intro j hj1 hj2
    rw [alookup_adel_ne _ (natKey_ne_of_none (by decide) j)]
    rw [alookup_assign_of_none _ (halE_other j (by omega))]
    exact hnotin j hj1
  have hR_orig : ∀ j, j < ob.len →
      alookup (adel (assignProps ob.props [(natKey i, v), (convKey, Val.bool true),
        ("length", Val.num ((i : Int) + 1))]) convKey) (natKey j)
      = alookup ob.props (natKey j) := by
    intro j hj
    rw [alookup_adel_ne _ (natKey_ne_of_none (by decide) j)]
    exact alookup_assign_of_none _ (halE_other j (by omega))
  have hn : toLengthNat (alookup (adel (assignProps ob.props [(natKey i, v),
      (convKey, Val.bool true), ("length", Val.num ((i : Int) + 1))]) convKey) "length")
      = i + 1 := by
    rw [hR_len]
    simp only [toLengthNat, toNumberJS]
    omega
  have hGP := goProps_all_scalar
    (applyWrites [(a, [(natKey i, v), (convKey, Val.bool true),
      ("length", Val.num ((i : Int) + 1))])] fuel)
    (assignProps ob.props [(natKey i, v), (convKey, Val.bool true),
      ("length", Val.num ((i : Int) + 1))])
    [(natKey i, v), (convKey, Val.bool true), ("length", Val.num ((i : Int) + 1))]
    ⟨heap0, next0, []⟩ hallscal
  have hct : truthyOpt (alookup (assignProps ob.props [(natKey i, v),
      (convKey, Val.bool true), ("length", Val.num ((i : Int) + 1))]) convKey) = true := by
    rw [hP_conv]
    rfl
  have hrunEq : runMerge [(a, [(natKey i, v), (convKey, Val.bool true),
      ("length", Val.num ((i : Int) + 1))])] (fuel + 1) a heap0 next0
      = (.ok (next0 + 1),
         ⟨(next0 + 1, ⟨true, i + 1, (List.range (i + 1)).map
            (fun j => (natKey j, (alookup (adel (assignProps ob.props [(natKey i, v),
              (convKey, Val.bool true), ("length", Val.num ((i : Int) + 1))]) convKey)
              (natKey j)).getD .undef))⟩) ::
          (next0, ⟨false, 0, adel (assignProps ob.props [(natKey i, v),
            (convKey, Val.bool true), ("length", Val.num ((i : Int) + 1))]) convKey⟩) ::
          heap0,
          next0 + 1 + 1, [(a, next0 + 1)]⟩) := by
    simp only [runMerge, applyWrites, hob, hGP, eq_self_iff_true, if_true,
      List.isEmpty_cons, Bool.false_eq_true, if_false, alloc, Option.getD_some,
      nlookup, nset, hct, hn]
  refine ⟨_, hstep1, hrunEq, ?_⟩
  refine ⟨_, nlookup_cons_self _ _ _, rfl, rfl, ?_, ?_, ?_⟩
  · rw [alookup_natKeyMap]
    rw [if_pos (Nat.lt_succ_self i)]
    rw [hR_i]
    rfl
  · intro j hj1 hj2
    rw [alookup_natKeyMap]
    rw [if_pos (by omega)]
    rw [hR_hole j hj1 hj2]
    rfl
  · intro j hj
    rw [alookup_natKeyMap]
    rw [if_pos (by omega)]
    rw [hR_orig j hj]

/-- C9 witnessed on the fixture array `["a","b","c"]`: writing index 5 grows
the output to a 6-long sequence with the value at 5, the original entries at
0–2, and `undefined` holes at 3–4. -/
theorem c9_sequence_growth_witness :
    ∃ st',
      proxySet [] heapArr 1 (natKey 5) (.str "x")
        = (.ok (), [(1, [(natKey 5, .str "x"), (convKey, .bool true),
                         ("length", .num ((5 : Int) + 1))])]) ∧
      runMerge [(1, [(natKey 5, .str "x"), (convKey, .bool true),
                     ("length", .num ((5 : Int) + 1))])] (3 + 1) 1 heapArr 2
        = (.ok (2 + 1), st') ∧
      ∃ arr, nlookup st'.heap (2 + 1) = some arr ∧ arr.isArr = true ∧
        arr.len = 5 + 1 ∧
        alookup arr.props (natKey 5) = some (.str "x") ∧
        (∀ j, (⟨true, 3, [("0", Val.str "a"), ("1", .str "b"), ("2", .str "c")]⟩ : Obj).len ≤ j →
          j < 5 → alookup arr.props (natKey j) = some .undef) ∧
        (∀ j, j < (⟨true, 3, [("0", Val.str "a"), ("1", .str "b"), ("2", .str "c")]⟩ : Obj).len →
          alookup arr.props (natKey j)
            = some ((alookup (⟨true, 3, [("0", Val.str "a"), ("1", .str "b"),
                ("2", .str "c")]⟩ : Obj).props (natKey j)).getD .undef)) :=
  c9_sequence_growth heapArr 1 5 2 3 (.str "x")
    ⟨true, 3, [("0", .str "a"), ("1", .str "b"), ("2", .str "c")]⟩
    (by decide) (by decide) (by decide) (by decide) (by decide) (by decide)

end ImmutableStaging
